import Mathlib

/-!
Verification of the Query/Ui parser and reifier pair in
src/experimental/copperfield/ui/src/parsers.ts.

The embedding mirrors the TypeScript source function by function. Raw text
is modelled as a list of characters. JavaScript objects used as dictionaries
are modelled as insertion-ordered association lists. Fresh identifier
generation (Api.uuid) is modelled by a counter threaded through the
computations. External fact-store lookups (Api.ixer) are modelled by a Store
structure of association lists passed as a parameter. Position metadata
(tokenIx, lineIx) that the source uses only to format caret positions of
error messages is omitted; errors are modelled by their throw site and
payload, and their exact message text is recovered by PErr.message.
Uncaught JavaScript exceptions (throw; property access on undefined) are
modelled with Except.
-/

deriving instance DecidableEq for Except

namespace Parsers

/-- Raw text: a JavaScript string as a list of characters. -/
abbrev Str := List Char

/-- Shorthand for writing character-list literals. -/
def str (s : String) : Str := s.toList

/-- The apostrophe character, used when building error message texts. -/
def apos : Char := Char.ofNat 39

/-- Wrap a string in apostrophes the way the template literals of the source
quote interpolated values. -/
def quo (s : Str) : Str := apos :: s ++ [apos]

--------------------------------------------------------------------------
-- JavaScript object dictionaries (string keys, insertion ordered)
--------------------------------------------------------------------------

/-- A JavaScript object used as a dictionary: an insertion-ordered
association list. Updating an existing key keeps its position, a new key is
appended at the end, matching the iteration order of JS objects. -/
abbrev Dict (K V : Type) := List (K × V)

def dictGet {K V : Type} [DecidableEq K] (d : Dict K V) (k : K) : Option V :=
  match d with
  | [] => none
  | (k1, v) :: t => if k1 = k then some v else dictGet t k

def dictSet {K V : Type} [DecidableEq K] (d : Dict K V) (k : K) (v : V) : Dict K V :=
  match d with
  | [] => [(k, v)]
  | (k1, v1) :: t => if k1 = k then (k, v) :: t else (k1, v1) :: dictSet t k v

/-- Update the value stored at an existing key in place. -/
def dictUpdate {K V : Type} [DecidableEq K] (d : Dict K V) (k : K) (f : V → V) : Dict K V :=
  match d with
  | [] => []
  | (k1, v1) :: t => if k1 = k then (k1, f v1) :: t else (k1, v1) :: dictUpdate t k f

--------------------------------------------------------------------------
-- Scalars and coerceInput
--------------------------------------------------------------------------

/-- A JavaScript scalar as produced by coerceInput: int, float, bool or
string. Floats are kept as their literal text, which is injective for the
inputs coerceInput accepts; no claim computes with float values. -/
inductive Scalar where
  | i (n : Int)
  | f (raw : Str)
  | b (v : Bool)
  | s (text : Str)
deriving DecidableEq, Repr

def isDigit (c : Char) : Bool := decide ('0' ≤ c) && decide (c ≤ '9')

/-- Regex /^-?[\d]+$/ of the source. -/
def isIntLit (s : Str) : Bool :=
  match s with
  | '-' :: rest => rest ≠ [] && rest.all isDigit
  | _ => s ≠ [] && s.all isDigit

/-- Regex /^-?[\d]+\.[\d]+$/ of the source. -/
def isFloatLit (s : Str) : Bool :=
  let core := fun (t : Str) =>
    match t.splitOn '.' with
    | [a, b] => a ≠ [] && a.all isDigit && b ≠ [] && b.all isDigit
    | _ => false
  match s with
  | '-' :: rest => core rest
  | _ => core s

def digitVal (c : Char) : Nat := c.toNat - '0'.toNat

def natOfDigits (s : Str) : Nat := s.foldl (fun acc c => acc * 10 + digitVal c) 0

/-- parseInt on a string already known to match /^-?[\d]+$/. -/
def parseIntL (s : Str) : Int :=
  match s with
  | '-' :: rest => -(natOfDigits rest : Int)
  | _ => (natOfDigits s : Int)

/-- coerceInput from the source: integer regex match to int, float regex
match to float, exact true/false to bool, anything else left a string. -/
def coerceInput (input : Str) : Scalar :=
  if isIntLit input then .i (parseIntL input)
  else if isFloatLit input then .f input
  else if input = str "true" then .b true
  else if input = str "false" then .b false
  else .s input

def natToStr (n : Nat) : Str := (toString n).toList

def intToStr (n : Int) : Str := (toString n).toList

/-- JavaScript string conversion of a scalar, as used in template literals. -/
def Scalar.toStr : Scalar → Str
  | .i n => intToStr n
  | .f raw => raw
  | .b true => str "true"
  | .b false => str "false"
  | .s t => t

/-- JavaScript falsiness of a scalar (0, 0.0, false and "" are falsy). -/
def Scalar.falsy : Scalar → Bool
  | .i n => n = 0
  | .f raw => raw.all (fun c => c = '0' || c = '.' || c = '-')
  | .b v => !v
  | .s t => t.isEmpty

/-- JavaScript falsiness of an optional string (undefined and "" are falsy). -/
def falsyS (s : Option Str) : Bool :=
  match s with
  | none => true
  | some t => t.isEmpty

/-- JavaScript looks up object[key] with key undefined under the string key
"undefined"; aliases that are absent are looked up this way in the source. -/
def aliasKey (al : Option Str) : Str :=
  match al with
  | none => str "undefined"
  | some a => a

/-- JavaScript a || b for an optional string operand (undefined and "" fall
through to the right operand). -/
def orFalsy (a : Option Str) (b : Str) : Str :=
  match a with
  | none => b
  | some t => if t.isEmpty then b else t

--------------------------------------------------------------------------
-- Fresh identifiers (Api.uuid)
--------------------------------------------------------------------------

/-- The fresh-identifier generator: a counter. Each call yields a distinct
string identifier (the exact text of an Api.uuid GUID is opaque to the
parser core; only freshness matters, so the model uses a shape whose
injectivity is immediate). -/
structure Gen where
  n : Nat
deriving DecidableEq, Repr

def uuidStr (n : Nat) : Str := str "uid-" ++ List.replicate n '*'

def uuid (g : Gen) : Str × Gen := (uuidStr g.n, ⟨g.n + 1⟩)

--------------------------------------------------------------------------
-- makeTokenizer
--------------------------------------------------------------------------

/-- First index at which tok occurs as a substring of raw; JavaScript
String.indexOf (the empty token occurs at index 0). -/
def firstOccur (tok : Str) : Str → Option Nat
  | [] => if tok.isPrefixOf ([] : Str) then some 0 else none
  | c :: t =>
    if tok.isPrefixOf (c :: t) then some 0
    else (firstOccur tok t).map (· + 1)

/-- The running minimum of the token scan in makeTokenizer. -/
structure MinT where
  minIx : Nat
  minToken : Str
deriving DecidableEq, Repr

/-- One step of the token scan of makeTokenizer: a token replaces the
running minimum only when it occurs strictly earlier. -/
def scanTok (raw : Str) (acc : MinT) (tok : Str) : MinT :=
  match firstOccur tok raw with
  | some ix => if ix < acc.minIx then ⟨ix, tok⟩ else acc
  | none => acc

/-- The scan of makeTokenizer over the token alphabet: earliest occurrence
wins, ties keep the earlier token in the list; when nothing matches the
whole remaining line is the token. -/
def findMin (alphabet : List Str) (raw : Str) : MinT :=
  alphabet.foldl (scanTok raw) ⟨raw.length, raw⟩

/-- The loop of the tokenizer returned by makeTokenizer, with explicit fuel;
none means the fuel ran out before the line was consumed. Each iteration
pushes the literal chunk before the found token (when non-empty and a token
was found) and then the token itself. -/
def tokenizeFuel (alphabet : List Str) : Nat → Str → Option (List Str)
  | _, [] => some []
  | 0, _ :: _ => none
  | fuel + 1, c :: t =>
    let raw := c :: t
    let m := findMin alphabet raw
    (tokenizeFuel alphabet fuel (raw.drop (m.minIx + m.minToken.length))).map
      (fun r =>
        (if 0 < m.minIx ∧ m.minIx < raw.length then [raw.take m.minIx] else [])
          ++ m.minToken :: r)

/-- The tokenizer itself. A line of n characters needs at most n iterations
when every token of the alphabet is non-empty (each iteration consumes at
least one character), so raw.length fuel is exact; the getD default is
unreachable for the alphabets of the source. -/
def tokenize (alphabet : List Str) (raw : Str) : List Str :=
  (tokenizeFuel alphabet raw.length raw).getD []

/-- Termination of the tokenizer as a proposition: some amount of fuel
completes the scan. -/
def tokTerminates (alphabet : List Str) (raw : Str) : Prop :=
  ∃ fuel, (tokenizeFuel alphabet fuel raw).isSome

--------------------------------------------------------------------------
-- Errors
--------------------------------------------------------------------------

/-- The parse and reification errors of the source, identified by their
throw site and interpolated payload. Collected errors are error values
pushed on the errors list; two sites (uiPropertiesSelectedAliases and
idBeforeChildren) are thrown instead. -/
inductive PErr where
  | unrecognizedTokenSequence
  | unterminatedQuotedLiteral
  | allActionFieldsAliased
  | calculationsFormat
  | tooManyCloseParens
  | tooFewCloseParens
  | ordinalMustFollowSource
  | ordinalRequiresField
  | ordinalsFormat
  | ordinalSortAliased
  | ordinalOneSortField
  | fingerprintNoView (fp : Str)
  | fingerprintMissingField (fp : Str)
  | ordinalsMustFollowValidSource
  | ordinalAliasNoMatch (al : Str)
  | actionReifyTodo
  | attributesFormat
  | valueMustBeField
  | extraneousTokens
  | bindingMustFollow
  | eventKeysAliased
  | bindingsMustFollowElement
  | joinUnselected (al : Str)
  | attributesMustFollowElement
  | couldNotResolveAttr (al : Str) (property : Str)
  | couldNotResolveEvent (al : Str) (ev : Str)
  | uiPropertiesSelectedAliases
  | idBeforeChildren
deriving DecidableEq, Repr

/-- The exact message text of each error of the source (the position suffix
that ParseError appends is omitted). -/
def PErr.message : PErr → Str
  | .unrecognizedTokenSequence => str "Unrecognized token sequence."
  | .unterminatedQuotedLiteral => str "Unterminated quoted literal."
  | .allActionFieldsAliased => str "All action fields must be aliased to a query field."
  | .calculationsFormat =>
    str "Calculations must be formatted as " ++ [apos] ++ str "?field $= <calculation>"
  | .tooManyCloseParens => str "Too many close parens"
  | .tooFewCloseParens => str "Too few close parens"
  | .ordinalMustFollowSource => str "Ordinal must immediately follow a source."
  | .ordinalRequiresField =>
    str "Ordinal requires a field to bind to (" ++ quo (str "?") ++ str " or "
      ++ quo (str "?foo") ++ str ")."
  | .ordinalsFormat => str "Ordinals are formatted as " ++ quo (str "# ? by ?... <dir>")
  | .ordinalSortAliased => str "Ordinal sorting fields must be aliased to a query field."
  | .ordinalOneSortField => str "Ordinal requires at least one sorting field."
  | .fingerprintNoView fp => str "Fingerprint " ++ quo fp ++ str " matches no known views."
  | .fingerprintMissingField fp => str "Fingerprint " ++ quo fp ++ str " is missing for field."
  | .ordinalsMustFollowValidSource => str "Ordinals must follow a valid source."
  | .ordinalAliasNoMatch a =>
    str "Ordinal alias " ++ quo a
      ++ str " does not match any aliased fields of the ordinated source."
  | .actionReifyTodo => str "@TODO: Add support for reifying actions"
  | .attributesFormat =>
    str "Attributes are formatted as " ++ quo (str "- <property>: <value or field>") ++ str "."
  | .valueMustBeField =>
    str "Value of attribute must be a field (either " ++ quo (str " ?foo ") ++ str " or "
      ++ quo (str " `100` ") ++ str ")"
  | .extraneousTokens => str "Extraneous tokens after value."
  | .bindingMustFollow => str "Binding must immediately follow an element or a binding."
  | .eventKeysAliased => str "Event keys must be aliased to a bound field."
  | .bindingsMustFollowElement => str "Bindings must follow an element."
  | .joinUnselected a => str "Cannot join nested views on unselected alias " ++ quo a
  | .attributesMustFollowElement => str "Attributes must follow an element."
  | .couldNotResolveAttr a p =>
    str "Could not resolve alias " ++ quo a ++ str " for bound attribute " ++ quo p
  | .couldNotResolveEvent a e =>
    str "Could not resolve alias " ++ quo a ++ str " for bound event " ++ quo e
  | .uiPropertiesSelectedAliases => str "UI Properties can only be bound to selected aliases."
  | .idBeforeChildren => str "ID must be set prior to including child elements."

/-- An abnormal termination of parse or reify: a thrown ParseError that no
caller catches, or a JavaScript TypeError from accessing a property of
undefined. -/
inductive RErr where
  | thrown (e : PErr)
  | typeError (site : Str)
deriving DecidableEq, Repr

--------------------------------------------------------------------------
-- Tokens and chunks
--------------------------------------------------------------------------

/-- A parsed field: ?alias, ??alias (grouped) or a backtick literal. -/
structure FieldT where
  grouped : Bool := false
  al : Option Str := none
  value : Option Scalar := none
deriving DecidableEq, Repr

/-- A chunk of a parsed Query line: text, keyword or field. -/
inductive QChunk where
  | text (s : Str)
  | keyword (s : Str)
  | field (f : FieldT)
deriving DecidableEq, Repr

/-- JavaScript a || "" over an optional string. -/
def orEmpty (a : Option Str) : Str := orFalsy a []

/-- tokenToString restricted to the chunks a parsed Query line contains;
chunk-level indent is always absent so no padding is produced. -/
def QChunk.toStr : QChunk → Str
  | .text s => s
  | .keyword s => s
  | .field f =>
    match f.value with
    | some v => '`' :: ((if v.falsy then [] else v.toStr) ++ ['`'])
    | none => '?' :: ((if f.grouped then ['?'] else []) ++ orEmpty f.al)

/-- The chunk contribution to a fingerprint: fields become "?". -/
def fpChunk : QChunk → Str
  | .field _ => ['?']
  | c => c.toStr

/-- fingerprintSource over the chunk list of a line: a leading text chunk
whose first two characters are "! " loses those two characters; every field
chunk contributes "?"; other chunks contribute their text. -/
def fingerprintSource (chunks : List QChunk) : Str :=
  match chunks with
  | QChunk.text s :: t =>
    if s.take 2 = str "! " then s.drop 2 ++ (t.map fpChunk).flatten
    else (fpChunk (QChunk.text s) :: t.map fpChunk).flatten
  | _ => (chunks.map fpChunk).flatten

--------------------------------------------------------------------------
-- consume helpers
--------------------------------------------------------------------------

/-- consumeWhile without an error argument: concatenates leading tokens
drawn from needles, returning the concatenation and the remaining tokens. -/
def consumeWhile (needles : List Str) : List Str → Str × List Str
  | [] => ([], [])
  | h :: t =>
    if h ∈ needles then
      let r := consumeWhile needles t
      (h ++ r.1, r.2)
    else ([], h :: t)

/-- consumeUntil without an error argument: concatenates leading tokens not
in needles, stopping at the first needle or the end. -/
def consumeUntil (needles : List Str) : List Str → Str × List Str
  | [] => ([], [])
  | h :: t =>
    if h ∈ needles then ([], h :: t)
    else
      let r := consumeUntil needles t
      (h ++ r.1, r.2)

/-- consumeUntil with an error argument: none when the tokens are exhausted
before any needle is found (the JavaScript version throws the error). -/
def consumeUntilE (needles : List Str) : List Str → Option (Str × List Str)
  | [] => none
  | h :: t =>
    if h ∈ needles then some ([], h :: t)
    else (consumeUntilE needles t).map (fun r => (h ++ r.1, r.2))

--------------------------------------------------------------------------
-- parseField (shared by Query and Ui)
--------------------------------------------------------------------------

def PUNCTUATION : List Str := [str ".", str ",", str ";", str ":"]

/-- parseField: none when the head token opens neither field form; an error
value for an unterminated backtick literal; otherwise the parsed field and
the remaining tokens. An alias is any next token other than a space or
punctuation. -/
def parseField (tokens : List Str) : Option (Except PErr (FieldT × List Str)) :=
  match tokens with
  | [] => none
  | t0 :: rest =>
    if t0 = str "?" then
      let gr : Bool × List Str :=
        match rest with
        | t1 :: r1 => if t1 = str "?" then (true, r1) else (false, t1 :: r1)
        | [] => (false, [])
      match gr.2 with
      | [] => some (.ok ({ grouped := gr.1 }, []))
      | h :: r =>
        if h ≠ str " " ∧ h ∉ PUNCTUATION then
          some (.ok ({ grouped := gr.1, al := some h }, r))
        else
          some (.ok ({ grouped := gr.1 }, h :: r))
    else if t0 = str "`" then
      match consumeUntilE [str "`"] rest with
      | none => some (.error .unterminatedQuotedLiteral)
      | some (content, rest2) =>
        some (.ok ({ value := some (coerceInput content) }, rest2.drop 1))
    else none

--------------------------------------------------------------------------
-- Query parser
--------------------------------------------------------------------------

def Q_ACTION_TOKENS : List Str := [str "+"]

def Q_KEYWORD_TOKENS : List Str :=
  [str "!", str "(", str ")", str "$=", str "#", str ";", str "?", str "`"]
    ++ Q_ACTION_TOKENS

def Q_TOKENS : List Str := [str " ", str "\t"] ++ Q_KEYWORD_TOKENS ++ PUNCTUATION

namespace Query

def qtokenize (raw : Str) : List Str := tokenize Q_TOKENS raw

/-- parseKeyword: a single token drawn from Q_KEYWORD_TOKENS. -/
def parseKeyword (tokens : List Str) : Option (QChunk × List Str) :=
  match tokens with
  | [] => none
  | h :: t => if h ∈ Q_KEYWORD_TOKENS then some (.keyword h, t) else none

/-- parseStructure: consume tokens into one text chunk until a keyword. -/
def parseStructure (tokens : List Str) : Option (QChunk × List Str) :=
  let r := consumeUntil Q_KEYWORD_TOKENS tokens
  if r.1.isEmpty then none else some (.text r.1, r.2)

/-- The chunk loop of parseLine, with fuel. Each successful sub-parse
consumes at least one token, so tokens.length + 1 fuel always suffices; the
fuel-exhaustion branch is unreachable. -/
def parseChunksFuel : Nat → List Str → Except PErr (List QChunk)
  | _, [] => .ok []
  | 0, _ :: _ => .error .unrecognizedTokenSequence
  | fuel + 1, h :: t =>
    match parseField (h :: t) with
    | some (.error e) => .error e
    | some (.ok (f, rest)) => (parseChunksFuel fuel rest).map (fun cs => .field f :: cs)
    | none =>
      match parseKeyword (h :: t) with
      | some (k, rest) => (parseChunksFuel fuel rest).map (fun cs => k :: cs)
      | none =>
        match parseStructure (h :: t) with
        | some (c, rest) => (parseChunksFuel fuel rest).map (fun cs => c :: cs)
        | none => .error .unrecognizedTokenSequence

structure QParsedLine where
  chunks : List QChunk
  indent : Nat
deriving DecidableEq, Repr

/-- parseLine: strip leading whitespace into the indent, parse the chunks;
ok none models the undefined returned for an empty chunk list. -/
def parseLine (tokens : List Str) : Except PErr (Option QParsedLine) :=
  let pad := consumeWhile [str " ", str "\t"] tokens
  match parseChunksFuel (pad.2.length + 1) pad.2 with
  | .error e => .error e
  | .ok cs =>
    if cs.isEmpty then .ok none
    else .ok (some { chunks := cs, indent := pad.1.length })

--------------------------------------------------------------------------
-- Structural classification of a parsed Query line
--------------------------------------------------------------------------

/-- A structurally classified Query line. A calc node carries the chunk
lists of its expanded source-like parts; blankText is the text node pushed
for an empty raw line. -/
inductive QNode where
  | blankText (s : Str)
  | comment (chunks : List QChunk)
  | source (negated : Bool) (chunks : List QChunk)
  | ordinal (al : Option Str) (directions : List (Option Str)) (chunks : List QChunk)
  | calculation (parts : List (List QChunk)) (text : Str)
  | action (chunks : List QChunk)
deriving DecidableEq, Repr

/-- processAction: first chunk is the keyword "+"; every field chunk must
carry a truthy alias. -/
def processAction (chunks : List QChunk) : Option (Except PErr QNode) :=
  match chunks with
  | QChunk.keyword k :: _ =>
    if k ∈ Q_ACTION_TOKENS then
      if chunks.any (fun c => match c with | .field f => falsyS f.al | _ => false) then
        some (.error .allActionFieldsAliased)
      else some (.ok (.action chunks))
    else none
  | _ => none

/-- The synthetic output alias of a calculation part: the template
interpolation renders an absent result alias as "undefined". -/
def mkCalcAlias (resAl : Option Str) (pIx : Nat) : Str :=
  '_' :: aliasKey resAl ++ '-' :: natToStr pIx

structure CalcPart where
  chunks : List QChunk
  partIx : Nat
deriving DecidableEq, Repr

/-- The paren-tree loop of processCalculation over chunks.slice(4). The
current innermost part is kept apart from the rest of the stack, so the
stack can never be empty mid-loop (matching the source, where a close paren
errors rather than emptying the stack). -/
def calcLoop (resAl : Option Str) :
    List QChunk → CalcPart → List CalcPart → Nat → List (List QChunk) →
      Except PErr (CalcPart × List CalcPart × Nat × List (List QChunk))
  | [], cur, stackRest, pIx, lines => .ok (cur, stackRest, pIx, lines)
  | tok :: rest, cur, stackRest, pIx, lines =>
    if tok = QChunk.keyword (str "(") then
      calcLoop resAl rest { chunks := [], partIx := pIx } (cur :: stackRest) (pIx + 1) lines
    else if tok = QChunk.keyword (str ")") then
      match stackRest with
      | [] => .error .tooManyCloseParens
      | prev :: more =>
        let al := mkCalcAlias resAl cur.partIx
        let fld : FieldT := { al := some al }
        let curC := cur.chunks ++ [QChunk.text (str " = "), QChunk.field fld]
        let prev2 := { prev with chunks := prev.chunks ++ [QChunk.field fld] }
        calcLoop resAl rest prev2 more pIx (lines ++ [curC])
    else
      calcLoop resAl rest { cur with chunks := cur.chunks ++ [tok] } stackRest pIx lines

/-- processCalculation: chunk 2 is the keyword "$=", chunk 0 must be a
field; the body is split into parenthesis parts, each closed part becoming
a source-like line referencing a synthetic alias. -/
def processCalculation (chunks : List QChunk) : Option (Except PErr QNode) :=
  match chunks.get? 2 with
  | some (QChunk.keyword k) =>
    if k = str "$=" then
      some (
        let text := (chunks.map QChunk.toStr).flatten
        match chunks.head? with
        | some (QChunk.field resF) =>
          match calcLoop resF.al (chunks.drop 4) { chunks := [], partIx := 0 } [] 1 [] with
          | .error e => .error e
          | .ok (cur, stackRest, _, lines) =>
            match stackRest with
            | _ :: _ => .error .tooFewCloseParens
            | [] =>
              let part0 := cur.chunks ++ [QChunk.text (str " = "), QChunk.field resF]
              .ok (QNode.calculation (lines ++ [part0]) text)
        | _ => .error .calculationsFormat)
    else none
  | _ => none

/-- The JavaScript text property of a chunk: fields have none (reading it
is a TypeError site in processOrdinal). -/
def chunkTextProp : QChunk → Option Str
  | .text s => some s
  | .keyword s => some s
  | .field _ => none

def isWS (c : Char) : Bool := c = ' ' || c = '\t'

/-- JavaScript String.trim over a single line. -/
def trimStr (s : Str) : Str := ((s.dropWhile isWS).reverse.dropWhile isWS).reverse

/-- Assignment into a possibly sparse JavaScript array. -/
def setSparse (l : List (Option Str)) (i : Nat) (v : Str) : List (Option Str) :=
  if i < l.length then l.set i (some v)
  else l ++ List.replicate (i - l.length) none ++ [some v]

def getSparse (l : List (Option Str)) (i : Nat) : Option Str := (l.get? i).join

/-- The direction scan of processOrdinal over chunks from index 3: fields
must be aliased and count as sort fields; text chunks (not keywords) after
at least one sort field set that field's direction by prefix match. -/
def ordinalDirections :
    List QChunk → Nat → List (Option Str) → Except PErr (Nat × List (Option Str))
  | [], cnt, dirs => .ok (cnt, dirs)
  | c :: rest, cnt, dirs =>
    match c with
    | QChunk.field f =>
      if falsyS f.al then .error .ordinalSortAliased
      else ordinalDirections rest (cnt + 1) dirs
    | QChunk.text s =>
      if 0 < cnt then
        let t := (trimStr s).map Char.toLower
        if (str "ascending").isPrefixOf t then
          ordinalDirections rest cnt (setSparse dirs (cnt - 1) (str "ascending"))
        else if (str "descending").isPrefixOf t then
          ordinalDirections rest cnt (setSparse dirs (cnt - 1) (str "descending"))
        else ordinalDirections rest cnt dirs
      else ordinalDirections rest cnt dirs
    | _ => ordinalDirections rest cnt dirs

/-- The body of processOrdinal once the line is known to start with "#".
Reading chunks[3].text when chunk 3 is a field is a TypeError site. -/
def ordinalCheck (prevNode : Option QNode) (chunks : List QChunk) :
    Except RErr (Except PErr QNode) :=
  let isSrc := match prevNode with | some (QNode.source _ _) => true | _ => false
  if !isSrc then .ok (.error .ordinalMustFollowSource)
  else
    match chunks.get? 2 with
    | some (QChunk.field f2) =>
      let proceed : Except RErr (Except PErr QNode) :=
        match ordinalDirections (chunks.drop 3) 0 [] with
        | .error e => .ok (.error e)
        | .ok (cnt, dirs) =>
          if cnt = 0 then .ok (.error .ordinalOneSortField)
          else .ok (.ok (QNode.ordinal f2.al dirs chunks))
      match chunks.get? 3 with
      | none => proceed
      | some c3 =>
        match chunkTextProp c3 with
        | none => .error (.typeError (str "chunks[3].text is undefined"))
        | some t3 =>
          if firstOccur (str "by") t3 ≠ some 1 then .ok (.error .ordinalsFormat)
          else proceed
    | _ => .ok (.error .ordinalRequiresField)

/-- processOrdinal: applies only when the first chunk is the keyword "#". -/
def processOrdinal (prevNode : Option QNode) (chunks : List QChunk) :
    Option (Except RErr (Except PErr QNode)) :=
  match chunks.head? with
  | some (QChunk.keyword k) => if k = str "#" then some (ordinalCheck prevNode chunks) else none
  | _ => none

/-- processSource: the default classification. The negation flag is set only
when the first chunk is a text token equal to "!"; the parser emits the
leading "!" as a keyword chunk, so this condition never holds on parsed
input. -/
def processSource (chunks : List QChunk) : QNode :=
  let negated := match chunks.head? with
    | some (QChunk.text s) => s = str "!"
    | _ => false
  QNode.source negated chunks

/-- The classification chain of parse: action, calculation, ordinal, then
source as the default. -/
def processLine (prevNode : Option QNode) (chunks : List QChunk) :
    Except RErr (Except PErr QNode) :=
  match processAction chunks with
  | some r => .ok r
  | none =>
    match processCalculation chunks with
    | some r => .ok r
    | none =>
      match processOrdinal prevNode chunks with
      | some r => r
      | none => .ok (.ok (processSource chunks))

end Query

--------------------------------------------------------------------------
-- Query IR
--------------------------------------------------------------------------

structure FieldIR where
  field : Str
  grouped : Bool := false
  al : Option Str := none
  value : Option Scalar := none
deriving DecidableEq, Repr

structure SortEntry where
  ix : Nat
  field : Str
  direction : Str
deriving DecidableEq, Repr

/-- A reified source. The ordinal field models the JavaScript value
alias-or-true: some none is true, some a is an alias. -/
structure SourceIR where
  source : Str
  sourceView : Str
  fields : List FieldIR := []
  negated : Bool := false
  chunked : Bool := false
  sort : Option (List SortEntry) := none
  ordinal : Option (Option Str) := none
deriving DecidableEq, Repr

structure VariableIR where
  selected : Option Str := none
  al : Option Str := none
  value : Option Scalar := none
  ordinals : Option (List Str) := none
  bindings : List (Str × Str) := []
deriving DecidableEq, Repr

structure QueryIR where
  id : Str
  sources : List SourceIR := []
  aliases : Dict Str Str := []
  vars : Dict Str VariableIR := []
  actions : List (List QChunk) := []
deriving DecidableEq, Repr

/-- The external fact store read by reification: the view fingerprint table
and the fingerprint field table (already in fingerprint-position order, as
produced by the sort in reify). -/
structure Store where
  viewByFingerprint : Dict Str Str := []
  fingerprintFields : Dict Str (List Str) := []
deriving DecidableEq, Repr

/-- getVariable: resolve or create the variable for an alias. A falsy varId
argument falls back to the alias table and then to a fresh id; a missing
variable record is created with the given selected field; a still
unselected variable for a truthy alias not starting with an underscore gets
a fresh selected id; a truthy alias is (re)bound in the alias table. -/
def getVariable (al : Option Str) (ir : QueryIR) (g : Gen) (varId0 : Option Str)
    (fieldId : Option Str) : Str × QueryIR × Gen :=
  let vg : Str × Gen :=
    if falsyS varId0 then
      match dictGet ir.aliases (aliasKey al) with
      | some v => if v.isEmpty then uuid g else (v, g)
      | none => uuid g
    else (varId0.getD [], g)
  let varId := vg.1
  let g := vg.2
  let ir :=
    match dictGet ir.vars varId with
    | some _ => ir
    | none => { ir with vars := dictSet ir.vars varId { selected := fieldId, al := al } }
  let needSel :=
    match dictGet ir.vars varId with
    | some v =>
      falsyS v.selected
        && (match al with | some a => !a.isEmpty && a.head? ≠ some '_' | none => false)
    | none => false
  let irg : QueryIR × Gen :=
    if needSel then
      let sg := uuid g
      ({ ir with vars :=
          dictUpdate ir.vars varId (fun v => { v with selected := some sg.1 }) }, sg.2)
    else (ir, g)
  let ir := irg.1
  let g := irg.2
  let ir :=
    match al with
    | some a => if a.isEmpty then ir else { ir with aliases := dictSet ir.aliases a varId }
    | none => ir
  (varId, ir, g)

namespace Query

/-- The arguments the reify source loop passes to getVariable from the
previous IR: varId = prev && prev.aliases[alias], and the previous selected
field varId && prev.vars[varId].selected. A truthy varId whose
variable record is missing from an adversarial previous IR is a TypeError
site. -/
def prevSelected (prev : Option QueryIR) (al : Option Str) :
    Except RErr (Option Str × Option Str) :=
  match prev with
  | none => .ok (none, none)
  | some p =>
    match dictGet p.aliases (aliasKey al) with
    | none => .ok (none, none)
    | some v =>
      if v.isEmpty then .ok (some v, some v)
      else
        match dictGet p.vars v with
        | none => .error (.typeError (str "prev.vars[varId] is undefined"))
        | some pv => .ok (some v, pv.selected)

/-- The per-field work of the reify source branch. missing models the
labelled break out of the whole line loop when the fingerprint runs out of
field mappings (the source under construction is then never pushed). -/
inductive FieldLoopRes where
  | done (src : SourceIR) (ir : QueryIR) (g : Gen)
  | missing (ir : QueryIR) (g : Gen)
deriving Repr

/-- The work done for one field token of a source line once its fingerprint
field id is known: extend the source's field list, resolve or create the
variable, record grouping, value and the binding. -/
def reifyFieldStep (prev : Option QueryIR) (f : FieldT) (fieldId : Str)
    (src : SourceIR) (ir : QueryIR) (g : Gen) :
    Except RErr (SourceIR × QueryIR × Gen) :=
  let fld : FieldIR := { field := fieldId, grouped := f.grouped, al := f.al, value := f.value }
  let src := { src with fields := src.fields ++ [fld] }
  match prevSelected prev f.al with
  | .error e => .error e
  | .ok vsel =>
    let vg := getVariable f.al ir g vsel.1 vsel.2
    let varId := vg.1
    let ir := vg.2.1
    let g := vg.2.2
    let src := if f.grouped then { src with chunked := true } else src
    let ir :=
      match f.value with
      | some v =>
        { ir with vars := dictUpdate ir.vars varId (fun vr => { vr with value := some v }) }
      | none => ir
    let newVars :=
      dictUpdate ir.vars varId
        (fun vr => { vr with bindings := vr.bindings ++ [(src.source, fld.field)] })
    .ok (src, { ir with vars := newVars }, g)

def reifyFields (prev : Option QueryIR) :
    List QChunk → SourceIR → List Str → QueryIR → Gen → Except RErr FieldLoopRes
  | [], src, _, ir, g => .ok (.done src ir g)
  | c :: rest, src, fieldIxes, ir, g =>
    match c with
    | QChunk.field f =>
      match fieldIxes with
      | [] => .ok (.missing ir g)
      | fieldId :: fieldRest =>
        if fieldId.isEmpty then .ok (.missing ir g)
        else
          match reifyFieldStep prev f fieldId src ir g with
          | .error e => .error e
          | .ok sig => reifyFields prev rest sig.1 fieldRest sig.2.1 sig.2.2
    | _ => reifyFields prev rest src fieldIxes ir g

/-- The variable work of the reify ordinal branch: resolve or create the
ordinal's variable and append the source id to its ordinals list. -/
def reifyOrdinalVar (prev : Option QueryIR) (lineAl : Option Str) (srcId : Str)
    (ir : QueryIR) (g : Gen) : Except RErr (QueryIR × Gen) :=
  match prevSelected prev lineAl with
  | .error e => .error e
  | .ok vsel =>
    let vg := getVariable lineAl ir g vsel.1 vsel.2
    let varId := vg.1
    let ir := vg.2.1
    let g := vg.2.2
    let newVars :=
      dictUpdate ir.vars varId (fun vr =>
        { vr with ordinals :=
            match vr.ordinals with
            | none => some [srcId]
            | some l => some (l ++ [srcId]) })
    .ok ({ ir with vars := newVars }, g)

/-- JavaScript unsorted.splice(unsorted.indexOf(x), 1): removes the first
occurrence when present, otherwise the LAST element (indexOf yields -1). -/
def eraseJS (l : List Str) (x : Str) : List Str :=
  if x ∈ l then l.erase x else l.dropLast

/-- The sort-field scan of the reify ordinal branch over chunks from index
3: each field chunk is matched against the source's fields by alias; a
match appends a sort entry and removes the field from the unsorted pool, a
miss records an error. -/
def ordinalSortLoop (dirs : List (Option Str)) (fields : List FieldIR) :
    List QChunk → Nat → List SortEntry → List Str → List PErr →
      Nat × List SortEntry × List Str × List PErr
  | [], sIx, sort, unsorted, errs => (sIx, sort, unsorted, errs)
  | c :: rest, sIx, sort, unsorted, errs =>
    match c with
    | QChunk.field f =>
      match fields.find? (fun fl => fl.al = f.al) with
      | some fl =>
        ordinalSortLoop dirs fields rest (sIx + 1)
          (sort ++ [{ ix := sIx, field := fl.field,
                      direction := orFalsy (getSparse dirs sIx) (str "ascending") }])
          (eraseJS unsorted fl.field) errs
      | none =>
        ordinalSortLoop dirs fields rest sIx sort unsorted
          (errs ++ [.ordinalAliasNoMatch (aliasKey f.al)])
    | _ => ordinalSortLoop dirs fields rest sIx sort unsorted errs

/-- Append the remaining unsorted fields as ascending sort entries. -/
def appendUnsorted : List Str → Nat → List SortEntry → List SortEntry
  | [], _, sort => sort
  | fd :: rest, sIx, sort =>
    appendUnsorted rest (sIx + 1)
      (sort ++ [{ ix := sIx, field := fd, direction := str "ascending" }])

/-- Replace the last source of the IR in place. -/
def setLastSource (ir : QueryIR) (src : SourceIR) : QueryIR :=
  { ir with sources := ir.sources.dropLast ++ [src] }

/-- The reify line loop over the calc-flattened chunk list. The missing
field mapping case returns early, modelling break LINE_LOOP. -/
def reifyLines (store : Store) (prev : Option QueryIR) :
    List QNode → QueryIR → List PErr → Gen → Except RErr (QueryIR × List PErr × Gen)
  | [], ir, errs, g => .ok (ir, errs, g)
  | line :: rest, ir, errs, g =>
    match line with
    | QNode.source neg chunks =>
      let fp := fingerprintSource chunks
      (match dictGet store.viewByFingerprint fp with
       | none => reifyLines store prev rest ir (errs ++ [.fingerprintNoView fp]) g
       | some view =>
         let sg := uuid g
         let g := sg.2
         let prevSource := prev.bind (fun p => p.sources.get? ir.sources.length)
         let sourceId :=
           match prevSource with
           | some ps => if ps.sourceView = view then ps.source else sg.1
           | none => sg.1
         let src0 : SourceIR := { source := sourceId, sourceView := view, negated := neg }
         let fieldIxes := (dictGet store.fingerprintFields fp).getD []
         match reifyFields prev chunks src0 fieldIxes ir g with
         | .error e => .error e
         | .ok (.missing ir2 g2) => .ok (ir2, errs ++ [.fingerprintMissingField fp], g2)
         | .ok (.done src ir2 g2) =>
           reifyLines store prev rest { ir2 with sources := ir2.sources ++ [src] } errs g2)
    | QNode.ordinal lineAl dirs chunks =>
      (match ir.sources.getLast? with
       | none =>
         reifyLines store prev rest ir (errs ++ [.ordinalsMustFollowValidSource]) g
       | some src =>
         let src := { src with
           ordinal := some (if falsyS lineAl then none else lineAl) }
         match reifyOrdinalVar prev lineAl src.source ir g with
         | .error e => .error e
         | .ok irg =>
           let ir := irg.1
           let g := irg.2
           let unsorted := src.fields.map (fun fl => fl.field)
           let scan := ordinalSortLoop dirs src.fields (chunks.drop 3) 0 [] unsorted []
           let sort := appendUnsorted scan.2.2.1 scan.1 scan.2.1
           let src := { src with sort := some sort }
           reifyLines store prev rest (setLastSource ir src) (errs ++ scan.2.2.2) g)
    | QNode.action _ => reifyLines store prev rest ir (errs ++ [.actionReifyTodo]) g
    | _ => reifyLines store prev rest ir errs g

/-- The chunk flattening at the head of reify: calculation lines contribute
their source-like parts, everything else passes through. -/
def flattenCalc (ast : List QNode) : List QNode :=
  (ast.map (fun n =>
    match n with
    | QNode.calculation parts _ => parts.map (fun p => QNode.source false p)
    | other => [other])).flatten

/-- The state owned by a Query instance. In the parse flow failed only ever
receives a Query IR, so the AST alternative of its type is not modelled. -/
structure QueryState where
  raw : Option Str := none
  ast : Option (List QNode) := none
  reified : Option QueryIR := none
  failed : Option QueryIR := none
  errors : List PErr := []
  id : Option Str := none
  prev : Option QueryIR := none
deriving DecidableEq, Repr

/-- Query.reify. -/
def reify (store : Store) (g : Gen) (st : QueryState) : Except RErr (QueryState × Gen) :=
  match st.ast with
  | none => .ok (st, g)
  | some ast =>
    let st := match st.reified with
      | some r => { st with prev := some r }
      | none => st
    let idg : Str × Gen :=
      match st.prev with
      | some p => if p.id.isEmpty then uuid g else (p.id, g)
      | none => uuid g
    let ir0 : QueryIR := { id := idg.1 }
    match reifyLines store st.prev (flattenCalc ast) ir0 st.errors idg.2 with
    | .error e => .error e
    | .ok (ir, errs, g2) =>
      if errs.isEmpty then
        .ok ({ st with errors := errs, reified := some ir, id := some ir.id }, g2)
      else
        .ok ({ st with errors := errs, failed := some ir, reified := none }, g2)

/-- The line loop of Query.parse: build the AST and collect per-line
errors. A non-empty token list whose parsed chunk list is empty leaves
parsed undefined and the subsequent chunk access is a TypeError site. -/
def parseLines : List Str → List QNode → List PErr → Except RErr (List QNode × List PErr)
  | [], ast, errs => .ok (ast, errs)
  | line :: rest, ast, errs =>
    let tokens := qtokenize line
    if tokens.isEmpty then parseLines rest (ast ++ [QNode.blankText []]) errs
    else
      match parseLine tokens with
      | .error e => parseLines rest ast (errs ++ [e])
      | .ok none => .error (.typeError (str "parsed is undefined: blank chunk list"))
      | .ok (some pl) =>
        let isComment : Bool :=
          match pl.chunks.head? with
          | some (QChunk.keyword k) => k = str ";"
          | _ => false
        if isComment then parseLines rest (ast ++ [QNode.comment pl.chunks]) errs
        else
          match processLine ast.getLast? pl.chunks with
          | .error e => .error e
          | .ok (.error pe) => parseLines rest ast (errs ++ [pe])
          | .ok (.ok node) => parseLines rest (ast ++ [node]) errs

def splitLines (raw : Str) : List Str := raw.splitOn '\n'

/-- Query.parse. The memoized path returns the instance unchanged; the
JavaScript method always returns the instance, so the returned state is the
instance. -/
def parse (store : Store) (g : Gen) (st : QueryState) (raw : Str) :
    Except RErr (QueryState × Gen) :=
  if st.raw = some raw then .ok (st, g)
  else
    let st := { st with
      errors := [],
      raw := some raw,
      ast := none,
      prev := match st.reified with | some r => some r | none => st.prev,
      reified := none }
    match parseLines (splitLines raw) [] [] with
    | .error e => .error e
    | .ok (ast, errs) =>
      let st := { st with ast := some ast, errors := errs }
      if errs.isEmpty then reify store g st
      else .ok (st, g)

end Query

--------------------------------------------------------------------------
-- Ui parser
--------------------------------------------------------------------------

def U_TOKENS : List Str :=
  [str ";", str ":", str "@", str "~", str "-", str " ", str "\t", str "`", str "?"]

/-- A reified Ui element. Element identifiers are scalars because the id
attribute override can store any literal value there. -/
structure ElementIR where
  element : Scalar
  tag : Option Str := none
  ix : Nat := 0
  name : Option Str := none
  parent : Option Scalar := none
  attributes : Dict Str Scalar := []
  boundAttributes : Dict Str Str := []
  events : List Str := []
  boundEvents : Dict Str Str := []
  boundView : Option Str := none
  bindings : Option (Dict Str Str) := none
deriving DecidableEq, Repr

structure UiIR where
  elements : List ElementIR
  root : ElementIR
  boundQueries : Dict Str Query.QueryState
deriving DecidableEq, Repr

namespace Ui

def utokenize (raw : Str) : List Str := tokenize U_TOKENS raw

/-- A structurally classified Ui line. -/
inductive UNode where
  | blankText (indent : Nat)
  | comment (text : Str) (indent : Nat)
  | attribute (property : Str) (value : FieldT) (static : Bool) (indent : Nat)
  | binding (text : Str) (indent : Nat)
  | event (ev : Str) (key : Option FieldT) (indent : Nat)
  | element (tag : Str) (classes : Str) (name : Option Str) (indent : Nat)
deriving DecidableEq, Repr

def UNode.ind : UNode → Nat
  | .blankText i => i
  | .comment _ i => i
  | .attribute _ _ _ i => i
  | .binding _ i => i
  | .event _ _ i => i
  | .element _ _ _ i => i

/-- One line of the Ui.parse loop: either a new AST (with the line appended
or, for a binding continuation, merged into the previous binding node) or
the AST unchanged plus a recorded error. -/
def parseOne (ast : List UNode) (errs : List PErr) (rawLine : Str) :
    List UNode × List PErr :=
  let tokens0 := utokenize rawLine
  let tokensLength := tokens0.length
  let cw := consumeWhile [str " ", str "\t"] tokens0
  let indent := tokensLength - cw.2.length
  match cw.2 with
  | [] => (ast ++ [UNode.blankText indent], errs)
  | head :: tokens =>
    if head = str ";" then
      (ast ++ [UNode.comment tokens.flatten indent], errs)
    else if head = str "-" then
      let cw2 := consumeWhile [str " ", str "\t"] tokens
      match consumeUntilE [str ":"] cw2.2 with
      | none => (ast, errs ++ [.attributesFormat])
      | some pr =>
        let cw3 := consumeWhile [str " ", str "\t"] (pr.2.drop 1)
        match parseField cw3.2 with
        | none => (ast, errs ++ [.valueMustBeField])
        | some (.error e) => (ast, errs ++ [e])
        | some (.ok fr) =>
          if !fr.2.isEmpty then (ast, errs ++ [.extraneousTokens])
          else (ast ++ [UNode.attribute pr.1 fr.1 fr.1.value.isSome indent], errs)
    else if head = str "~" then
      match ast.getLast? with
      | none =>
        let cw2 := consumeWhile [str " ", str "\t"] tokens
        (ast ++ [UNode.binding cw2.2.flatten indent], errs)
      | some (UNode.element _ _ _ _) =>
        let cw2 := consumeWhile [str " ", str "\t"] tokens
        (ast ++ [UNode.binding cw2.2.flatten indent], errs)
      | some (UNode.binding btext bindent) =>
        let cw2 := consumeWhile [str " ", str "\t"] tokens
        (ast.dropLast ++ [UNode.binding (btext ++ '\n' :: cw2.2.flatten) bindent], errs)
      | some _ => (ast, errs ++ [.bindingMustFollow])
    else if head = str "@" then
      let cw2 := consumeWhile [str " ", str "\t"] tokens
      let cu := consumeUntil [str ":"] cw2.2
      let cw3 := consumeWhile [str " ", str "\t"] (cu.2.drop 1)
      if cw3.2.isEmpty then (ast ++ [UNode.event cu.1 none indent], errs)
      else
        match parseField cw3.2 with
        | none => (ast, errs ++ [.valueMustBeField])
        | some (.error e) => (ast, errs ++ [e])
        | some (.ok fr) =>
          if falsyS fr.1.al then (ast, errs ++ [.eventKeysAliased])
          else if !fr.2.isEmpty then (ast, errs ++ [.extraneousTokens])
          else (ast ++ [UNode.event cu.1 (some fr.1) indent], errs)
    else
      let cu := consumeUntil [str ";"] tokens
      let tokens2 := if cu.2.head? = some (str ";") then cu.2.drop 1 else cu.2
      let name := if tokens2.isEmpty then none else some (Query.trimStr tokens2.flatten)
      (ast ++ [UNode.element head cu.1 name indent], errs)

/-- The line loop of Ui.parse. No step of it can throw: every failure is a
recorded error value. -/
def parseLines : List Str → List UNode → List PErr → List UNode × List PErr
  | [], ast, errs => (ast, errs)
  | line :: rest, ast, errs =>
    let r := parseOne ast errs line
    parseLines rest r.1 r.2

--------------------------------------------------------------------------
-- Ui reifier
--------------------------------------------------------------------------

/-- A reference into the element heap of a reification pass: none is the
root, some i the i-th created element. The JavaScript source shares the
ElementIR objects between the elements array and the ancestors stack and
mutates them; references into one list model that aliasing. -/
abbrev ERef := Option Nat

/-- The mutable state of one Ui reification pass. The ancestors stack keeps
its innermost element at the head. -/
structure RState where
  root : ElementIR
  elements : List ElementIR := []
  boundQueries : Dict Str Query.QueryState := []
  indentD : Dict Scalar Int := []
  childD : Dict Scalar Nat := []
  ancestors : List ERef := [none]
  errs : List PErr := []
  g : Gen := ⟨0⟩
deriving DecidableEq, Repr

def dummyElem : ElementIR := { element := Scalar.s (str "dummy") }

/-- Dereference; references are only ever created for existing elements, so
the dummy default is unreachable. -/
def RState.refElem (s : RState) (r : ERef) : ElementIR :=
  match r with
  | none => s.root
  | some i => (s.elements.get? i).getD dummyElem

def RState.setRef (s : RState) (r : ERef) (e : ElementIR) : RState :=
  match r with
  | none => { s with root := e }
  | some i => { s with elements := s.elements.set i e }

/-- The ancestor pop loop at the head of each reified line: pop while the
recorded indent of the top is not less than the line's indent (a missing
indent entry compares as undefined, which is never less, so it pops).
The returned reference is the last examined ancestor — the JavaScript
variable keeps pointing at the last popped element when the stack
empties — and none is returned only when the stack was empty already. -/
def popLoop (s : RState) (ind : Int) :
    List ERef → Option ERef → Option ERef × List ERef
  | [], last => (last, [])
  | r :: rest, _ =>
    match dictGet s.indentD (s.refElem r).element with
    | some i => if i < ind then (some r, r :: rest) else popLoop s ind rest (some r)
    | none => popLoop s ind rest (some r)

/-- getScopedBinding: scan the ancestors innermost first; the first one
with a bound view resolves the alias in that query's alias table; a match
whose variable is unselected throws; no match anywhere returns none. -/
def getScopedBinding (s : RState) (al : Str) : List ERef → Except RErr (Option Str)
  | [] => .ok none
  | r :: rest =>
    let parent := s.refElem r
    match parent.boundView with
    | none => getScopedBinding s al rest
    | some bv =>
      if bv.isEmpty then getScopedBinding s al rest
      else
        match dictGet s.boundQueries bv with
        | none => .error (.typeError (str "boundViews[parent.boundView] is undefined"))
        | some scope =>
          match scope.reified with
          | none => .error (.typeError (str "scope.reified is undefined"))
          | some sir =>
            match dictGet sir.aliases al with
            | none => getScopedBinding s al rest
            | some varId =>
              if varId.isEmpty then getScopedBinding s al rest
              else
                match dictGet sir.vars varId with
                | none => .error (.typeError (str "variables[varId] is undefined"))
                | some v =>
                  if falsyS v.selected then .error (.thrown .uiPropertiesSelectedAliases)
                  else .ok v.selected

/-- The join scan of the binding branch over the nested query's alias
table, in insertion order. The scoped lookup skips the current element
(the stack minus its head); the selected lookup can crash on an
inconsistent IR; an unselected join records an error. -/
def bindingJoins (s : RState) (qir : QueryIR) (outer : List ERef) :
    List (Str × Str) → Dict Str Str → Bool → List PErr →
      Except RErr (Dict Str Str × Bool × List PErr)
  | [], joined, scopeJoined, errs => .ok (joined, scopeJoined, errs)
  | (al, varId) :: rest, joined, scopeJoined, errs =>
    match getScopedBinding s al outer with
    | .error e => .error e
    | .ok scopedField =>
      match dictGet qir.vars varId with
      | none => .error (.typeError (str "query.reified.variables[varId] is undefined"))
      | some v =>
        match scopedField with
        | none => bindingJoins s qir outer rest joined scopeJoined errs
        | some sf =>
          if falsyS v.selected then
            bindingJoins s qir outer rest joined scopeJoined (errs ++ [.joinUnselected al])
          else
            bindingJoins s qir outer rest
              (dictSet joined (v.selected.getD []) sf) true errs

/-- One reified line (after the ancestor pop); parentElem is the reference
the pop loop produced. -/
def reifyStep (store : Store) (prev : Option UiIR) (parentElem : Option ERef)
    (line : UNode) (s : RState) : Except RErr RState :=
  match line with
  | UNode.element tag classes name ind =>
    match parentElem with
    | none => .error (.typeError (str "parentElem is undefined"))
    | some pref =>
      let prevElem := prev.bind (fun p => p.elements.get? s.elements.length)
      let eg : Scalar × Gen :=
        match prevElem with
        | some pe => (pe.element, s.g)
        | none => let u := uuid s.g; (Scalar.s u.1, u.2)
      let pid := (s.refElem pref).element
      let cnt := (dictGet s.childD pid).getD 0
      let s := { s with childD := dictSet s.childD pid (cnt + 1) }
      let elem : ElementIR :=
        { element := eg.1, tag := some tag, parent := some pid, ix := cnt,
          attributes := if classes.isEmpty then [] else [(str "c", Scalar.s classes)],
          name := name }
      let i := s.elements.length
      .ok { s with
        elements := s.elements ++ [elem],
        indentD := dictSet s.indentD eg.1 (ind : Int),
        childD := dictSet s.childD eg.1 0,
        ancestors := some i :: s.ancestors,
        g := eg.2 }
  | UNode.binding btext _ =>
    match parentElem with
    | none => .ok { s with errs := s.errs ++ [.bindingsMustFollowElement] }
    | some pref =>
      match Query.parse store s.g {} btext with
      | .error e => .error e
      | .ok qg =>
        let query := qg.1
        let s := { s with g := qg.2 }
        let s := { s with boundQueries := dictSet s.boundQueries (aliasKey query.id) query }
        let s := s.setRef pref { s.refElem pref with boundView := query.id }
        match query.reified with
        | none => .error (.typeError (str "query.reified is undefined"))
        | some qir =>
          match bindingJoins s qir (s.ancestors.drop 1) qir.aliases [] false s.errs with
          | .error e => .error e
          | .ok res =>
            let s := { s with errs := res.2.2 }
            if res.2.1 then .ok (s.setRef pref { s.refElem pref with bindings := some res.1 })
            else .ok s
  | UNode.attribute prop value static _ =>
    match parentElem with
    | none => .ok { s with errs := s.errs ++ [.attributesMustFollowElement] }
    | some pref =>
      if static then
        if prop = str "parent" then
          .ok (s.setRef pref { s.refElem pref with parent := value.value })
        else if prop = str "id" then
          let old := (s.refElem pref).element
          match dictGet s.childD old with
          | some (_ + 1) => .error (.thrown .idBeforeChildren)
          | _ =>
            let newId := value.value.getD (Scalar.s (str "undefined"))
            let s := s.setRef pref { s.refElem pref with element := newId }
            let s :=
              match dictGet s.indentD old with
              | some iv => { s with indentD := dictSet s.indentD newId iv }
              | none => s
            let s :=
              match dictGet s.childD old with
              | some cv => { s with childD := dictSet s.childD newId cv }
              | none => s
            .ok s
        else
          .ok (s.setRef pref
            { s.refElem pref with
              attributes := dictSet (s.refElem pref).attributes prop
                (value.value.getD (Scalar.s (str "undefined"))) })
      else
        match getScopedBinding s (aliasKey value.al) s.ancestors with
        | .error e => .error e
        | .ok none => .ok { s with errs := s.errs ++ [.couldNotResolveAttr (aliasKey value.al) prop] }
        | .ok (some fid) =>
          .ok (s.setRef pref
            { s.refElem pref with
              boundAttributes := dictSet (s.refElem pref).boundAttributes prop fid })
  | UNode.event ev key _ =>
    match key with
    | some k =>
      match getScopedBinding s (aliasKey k.al) s.ancestors with
      | .error e => .error e
      | .ok scf =>
        match parentElem with
        | none => .error (.typeError (str "parentElem is undefined"))
        | some pref =>
          match scf with
          | none => .ok { s with errs := s.errs ++ [.couldNotResolveEvent (aliasKey k.al) ev] }
          | some fid =>
            .ok (s.setRef pref
              { s.refElem pref with boundEvents := dictSet (s.refElem pref).boundEvents ev fid })
    | none =>
      match parentElem with
      | none => .error (.typeError (str "parentElem is undefined"))
      | some pref =>
        .ok (s.setRef pref { s.refElem pref with events := (s.refElem pref).events ++ [ev] })
  | _ => .ok s

/-- The Ui reify line loop: comments and blank text lines are skipped
before any ancestor popping; every other line pops first. -/
def reifyLoop (store : Store) (prev : Option UiIR) :
    List UNode → RState → Except RErr RState
  | [], s => .ok s
  | line :: rest, s =>
    match line with
    | UNode.blankText _ => reifyLoop store prev rest s
    | UNode.comment _ _ => reifyLoop store prev rest s
    | other =>
      let pl := popLoop s (other.ind : Int) s.ancestors none
      let s := { s with ancestors := pl.2 }
      match reifyStep store prev pl.1 other s with
      | .error e => .error e
      | .ok s2 => reifyLoop store prev rest s2

/-- The state owned by a Ui instance. As with Query, failed only ever
receives an IR in the parse flow. -/
structure UiState where
  raw : Option Str := none
  ast : Option (List UNode) := none
  reified : Option UiIR := none
  failed : Option UiIR := none
  errors : List PErr := []
  id : Option Scalar := none
  prev : Option UiIR := none
deriving DecidableEq, Repr

/-- Ui.reify. -/
def reify (store : Store) (g : Gen) (st : UiState) : Except RErr (UiState × Gen) :=
  match st.ast with
  | none => .ok (st, g)
  | some ast =>
    let st := match st.reified with
      | some r => { st with prev := some r }
      | none => st
    let rg : Scalar × Gen :=
      match st.prev with
      | some p => (p.root.element, g)
      | none => let u := uuid g; (Scalar.s u.1, u.2)
    let root : ElementIR := { element := rg.1, tag := some (str "div"), ix := 0 }
    let s0 : RState :=
      { root := root, indentD := [(rg.1, (-1 : Int))], childD := [(rg.1, 0)],
        errs := st.errors, g := rg.2 }
    match reifyLoop store st.prev ast s0 with
    | .error e => .error e
    | .ok s =>
      let ir : UiIR := { elements := s.elements, root := s.root, boundQueries := s.boundQueries }
      if s.errs.isEmpty then
        .ok ({ st with errors := s.errs, reified := some ir, id := some rg.1 }, s.g)
      else
        .ok ({ st with errors := s.errs, failed := some ir, reified := none }, s.g)

def splitLines (raw : Str) : List Str := raw.splitOn '\n'

/-- Ui.parse. The Bool of the result records whether the method returned
the instance: true only on the memoized path, false (undefined in the
source) otherwise. -/
def parse (store : Store) (g : Gen) (st : UiState) (raw : Str) :
    Except RErr (UiState × Gen × Bool) :=
  if st.raw = some raw then .ok (st, g, true)
  else
    let st := { st with
      errors := [],
      raw := some raw,
      ast := none,
      prev := match st.reified with | some r => some r | none => st.prev,
      reified := none }
    let pr := parseLines (splitLines raw) [] []
    let st := { st with ast := some pr.1, errors := pr.2 }
    if pr.2.isEmpty then
      match reify store g st with
      | .error e => .error e
      | .ok sg => .ok (sg.1, sg.2, false)
    else .ok (st, g, false)

end Ui

--------------------------------------------------------------------------
-- Concrete fixtures and result accessors
--------------------------------------------------------------------------

def gen0 : Gen := ⟨0⟩

def emptyStore : Store := {}

def freshQuery : Query.QueryState := {}

/-- A store with one view V whose single fingerprint is "foo ?" with one
field F at fingerprint position 0. -/
def storeFoo : Store :=
  { viewByFingerprint := [(str "foo ?", str "V")]
    fingerprintFields := [(str "foo ?", [str "F"])] }

/-- A store knowing the fingerprint "! foo ?" that a parsed negated-looking
line produces (the leading "!" is a keyword chunk, so it lands in the
fingerprint verbatim). -/
def storeBang : Store :=
  { viewByFingerprint := [(str "! foo ?", str "V")]
    fingerprintFields := [(str "! foo ?", [str "F"])] }

/-- The state component of a normally returning Query.parse run. -/
def okState : Except RErr (Query.QueryState × Gen) → Option Query.QueryState
  | .ok p => some p.1
  | .error _ => none

/-- The generator component of a normally returning Query.parse run. -/
def okGen : Except RErr (Query.QueryState × Gen) → Option Gen
  | .ok p => some p.2
  | .error _ => none

/-- The concrete run used by the C2 witness: a source line whose
fingerprint matches no view of the empty store. -/
def c2run : Except RErr (Query.QueryState × Gen) :=
  Query.parse emptyStore gen0 freshQuery (str "foo $= (bar + )")

def c2st : Query.QueryState := (okState c2run).getD {}

def c2g : Gen := (okGen c2run).getD gen0

/-- The two-step run used by the C1 witness: parse "foo ?x" against
storeFoo, then re-parse text whose line 0 is unchanged. -/
def c1run1 : Except RErr (Query.QueryState × Gen) :=
  Query.parse storeFoo gen0 freshQuery (str "foo ?x")

def c1st1 : Query.QueryState := (okState c1run1).getD {}

def c1g1 : Gen := (okGen c1run1).getD gen0

def c1run2 : Except RErr (Query.QueryState × Gen) :=
  Query.parse storeFoo c1g1 c1st1 (str "foo ?x\n")

def c1st2 : Query.QueryState := (okState c1run2).getD {}

def c1g2 : Gen := (okGen c1run2).getD gen0

def c1prevIR : QueryIR := c1st1.reified.getD { id := [] }

def c1ir : QueryIR := c1st2.reified.getD { id := [] }

def c1ps : SourceIR := c1prevIR.sources.head?.getD { source := [], sourceView := [] }

def c1s0 : SourceIR := c1ir.sources.head?.getD { source := [], sourceView := [] }

def freshUi : Ui.UiState := {}

/-- The concrete non-memoized Ui.parse run used by the C10 witness. -/
def c10run : Except RErr (Ui.UiState × Gen × Bool) :=
  Ui.parse emptyStore gen0 freshUi (str "div")

def c10st : Ui.UiState := match c10run with | .ok p => p.1 | .error _ => {}

def c10g : Gen := match c10run with | .ok p => p.2.1 | .error _ => gen0

def c10ret : Bool := match c10run with | .ok p => p.2.2 | .error _ => true

/-- Head-position source-id stability relative to a previous IR: if the
head source of the list resolves to the same view as the head source of the
previous IR, it carries the identical source id. -/
def headStable (pIR : QueryIR) (srcs : List SourceIR) : Prop :=
  ∀ hd ps, srcs.head? = some hd → pIR.sources.head? = some ps →
    hd.sourceView = ps.sourceView → hd.source = ps.source

/-- The invariant reifyFields maintains: the source under construction
keeps its id and view, and the sources list of the IR is untouched. -/
def fieldResInv (src : SourceIR) (ir : QueryIR) : Query.FieldLoopRes → Prop
  | .done src2 ir2 _ =>
    src2.source = src.source ∧ src2.sourceView = src.sourceView ∧ ir2.sources = ir.sources
  | .missing ir2 _ => ir2.sources = ir.sources

--------------------------------------------------------------------------
-- Ui tree-shape specification (C9)
--------------------------------------------------------------------------

/-- The indents of the element lines of a Ui AST, in document order. -/
def elemIndents (ast : List Ui.UNode) : List Nat :=
  ast.filterMap (fun n =>
    match n with
    | Ui.UNode.element _ _ _ i => some i
    | _ => none)

/-- The nearest preceding lower-indent element: the largest j before i
whose indent is strictly below the indent of i. -/
def nearestLower (inds : List Nat) (i : Nat) : Option Nat :=
  (List.range i).reverse.find? (fun j => decide (inds.getD j 0 < inds.getD i 0))

/-- No static attribute line overrides the structural parent or the element
id. -/
def noOverrides (ast : List Ui.UNode) : Bool :=
  ast.all (fun n =>
    match n with
    | Ui.UNode.attribute p _ true _ => p ≠ str "parent" && p ≠ str "id"
    | _ => true)

/-- Every attribute, binding or event line is indented strictly deeper than
the most recent element line before it; the first argument carries the
indent of that element (none before any element). Such lines then never pop
the ancestor stack. -/
def indentsOk : Option Nat → List Ui.UNode → Bool
  | _, [] => true
  | lastE, n :: rest =>
    match n with
    | Ui.UNode.element _ _ _ i => indentsOk (some i) rest
    | Ui.UNode.blankText _ => indentsOk lastE rest
    | Ui.UNode.comment _ _ => indentsOk lastE rest
    | other =>
      (match lastE with
       | none => true
       | some e => decide (e < other.ind)) && indentsOk lastE rest

/-- The data the non-element reify steps leave untouched: the element count,
every element's id and parent, the root id, the indent table and the
ancestor stack; the generator only moves forward. -/
def rsPreserves (s s2 : Ui.RState) : Prop :=
  s2.elements.length = s.elements.length
  ∧ (∀ i, (s2.refElem (some i)).element = (s.refElem (some i)).element
      ∧ (s2.refElem (some i)).parent = (s.refElem (some i)).parent)
  ∧ s2.root.element = s.root.element
  ∧ s2.indentD = s.indentD
  ∧ s2.ancestors = s.ancestors
  ∧ s.g.n ≤ s2.g.n

/-- The induction invariant of the C9 tree-shape proof, relative to the
indents einds of the element lines already processed. -/
def C9Inv (einds : List Nat) (s : Ui.RState) : Prop :=
  s.elements.length = einds.length
  ∧ (∀ i, i < s.elements.length →
      ∃ n, n < s.g.n ∧ (s.refElem (some i)).element = Scalar.s (uuidStr n))
  ∧ (∃ n0, n0 < s.g.n ∧ s.root.element = Scalar.s (uuidStr n0))
  ∧ (s.root.element :: s.elements.map (fun e => e.element)).Pairwise (· ≠ ·)
  ∧ dictGet s.indentD s.root.element = some (-1)
  ∧ (∀ i, i < s.elements.length →
      dictGet s.indentD ((s.refElem (some i)).element) = some ((einds.getD i 0 : Int)))
  ∧ (∃ js : List Nat,
      s.ancestors = js.map some ++ [none]
      ∧ js.Pairwise (fun a b => a > b ∧ einds.getD a 0 > einds.getD b 0)
      ∧ (∀ j ∈ js, j < s.elements.length)
      ∧ (∀ j, j < s.elements.length →
          (j ∈ js ↔ ∀ j2, j < j2 → j2 < s.elements.length →
            einds.getD j 0 < einds.getD j2 0)))
  ∧ (∀ i, i < s.elements.length →
      (s.refElem (some i)).parent
        = some (match nearestLower einds i with
                | some j => (s.refElem (some j)).element
                | none => s.root.element))

/-- The indent seed the indentsOk predicate has reached after the element
lines whose indents are einds: the last of them, none before any element. -/
def lastSeed (einds : List Nat) : Option Nat :=
  if einds.isEmpty then none else some (einds.getD (einds.length - 1) 0)

/-- The state produced by the element branch of reifyStep (with no previous
IR) from state s once the ancestor pop has produced the parent reference
pref and the popped stack: a fresh id, the parent recorded, the element
appended and pushed. -/
def elemStepState (s : Ui.RState) (tag classes : Str) (name : Option Str) (d : Nat)
    (pref : Ui.ERef) (stack : List Ui.ERef) : Ui.RState :=
  let eid : Scalar := Scalar.s (uuidStr s.g.n)
  let pid := (s.refElem pref).element
  let cnt := (dictGet s.childD pid).getD 0
  let cd1 := dictSet s.childD pid (cnt + 1)
  { s with
    elements := s.elements ++
      [{ element := eid, tag := some tag, parent := some pid, ix := cnt,
         attributes := if classes.isEmpty then [] else [(str "c", Scalar.s classes)],
         name := name }],
    indentD := dictSet s.indentD eid (d : Int),
    childD := dictSet cd1 eid 0,
    ancestors := some s.elements.length :: stack,
    g := ⟨s.g.n + 1⟩ }

/-- The concrete well-nested AST of the C9 witness: div > span > p, b. -/
def c9ast : List Ui.UNode :=
  [Ui.UNode.element (str "div") [] none 0,
   Ui.UNode.element (str "span") [] none 2,
   Ui.UNode.element (str "p") [] none 4,
   Ui.UNode.element (str "b") [] none 2]

def c9run : Except RErr (Ui.UiState × Gen) :=
  Ui.reify emptyStore gen0 { freshUi with ast := some c9ast }

def c9st : Ui.UiState := match c9run with | .ok p => p.1 | .error _ => {}

def c9g : Gen := match c9run with | .ok p => p.2 | .error _ => gen0

def c9ir : UiIR := c9st.reified.getD ⟨[], Ui.dummyElem, []⟩

/-- The C9 counterexample runs: a static parent attribute override, and an
attribute line shallower than its element, which pops the ancestor stack. -/
def c9xrun1 : Except RErr (Ui.UiState × Gen × Bool) :=
  Ui.parse emptyStore gen0 freshUi (str "div\n  - parent: `A`")

def c9xst1 : Ui.UiState := match c9xrun1 with | .ok p => p.1 | .error _ => {}

def c9xir1 : UiIR := c9xst1.reified.getD ⟨[], Ui.dummyElem, []⟩

def c9xrun2 : Except RErr (Ui.UiState × Gen × Bool) :=
  Ui.parse emptyStore gen0 freshUi (str "div\n  span\n- x: `1`\n    p")

def c9xst2 : Ui.UiState := match c9xrun2 with | .ok p => p.1 | .error _ => {}

def c9xir2 : UiIR := c9xst2.reified.getD ⟨[], Ui.dummyElem, []⟩

set_option synthInstance.maxSize 2000

set_option maxRecDepth 100000

--------------------------------------------------------------------------
-- Theorems: tokenizer (C4)
--------------------------------------------------------------------------

theorem isPrefixOf_append (tok : Str) :
    ∀ (l : Str), tok.isPrefixOf l = true → tok ++ l.drop tok.length = l := by
  induction tok with
  | nil => intro l _; simp
  | cons c tk ih =>
    intro l h
    cases l with
    | nil => simp [List.isPrefixOf] at h
    | cons d ld =>
      simp only [List.isPrefixOf, Bool.and_eq_true, beq_iff_eq] at h
      obtain ⟨rfl, h2⟩ := h
      simpa using ih ld h2

theorem firstOccur_eq_some (tok : Str) :
    ∀ (raw : Str) (ix : Nat), firstOccur tok raw = some ix →
      ix ≤ raw.length ∧ tok.isPrefixOf (raw.drop ix) = true := by
  intro raw
  induction raw with
  | nil =>
    intro ix h
    simp only [firstOccur] at h
    split at h
    · rename_i hp
      cases h
      exact ⟨Nat.le_refl 0, hp⟩
    · cases h
  | cons c t ih =>
    intro ix h
    simp only [firstOccur] at h
    split at h
    · rename_i hp
      cases h
      exact ⟨Nat.zero_le _, hp⟩
    · rcases Option.map_eq_some'.mp h with ⟨j, hj, rfl⟩
      rcases ih j hj with ⟨h1, h2⟩
      exact ⟨by simpa using Nat.succ_le_succ h1, by simpa using h2⟩

theorem findMin_aux (raw : Str) (alphabet : List Str) :
    ∀ (l : List Str) (acc : MinT),
      (∀ t ∈ l, t ∈ alphabet) →
      (acc = ⟨raw.length, raw⟩ ∨
        (acc.minToken ∈ alphabet ∧ acc.minIx < raw.length ∧
          firstOccur acc.minToken raw = some acc.minIx)) →
      (l.foldl (scanTok raw) acc = ⟨raw.length, raw⟩ ∨
        ((l.foldl (scanTok raw) acc).minToken ∈ alphabet ∧
          (l.foldl (scanTok raw) acc).minIx < raw.length ∧
          firstOccur (l.foldl (scanTok raw) acc).minToken raw
            = some (l.foldl (scanTok raw) acc).minIx)) := by
  intro l
  induction l with
  | nil => intro acc _ hacc; simpa using hacc
  | cons tok rest ih =>
    intro acc hmem hacc
    simp only [List.foldl_cons]
    apply ih
    · intro t ht; exact hmem t (List.mem_cons_of_mem tok ht)
    · unfold scanTok
      cases hfo : firstOccur tok raw with
      | none => simpa using hacc
      | some ix =>
        simp only
        split
        · rename_i hlt
          right
          refine ⟨hmem tok (List.mem_cons_self tok rest), ?_, hfo⟩
          rcases hacc with rfl | ⟨_, h2, _⟩
          · exact hlt
          · exact Nat.lt_trans hlt h2
        · exact hacc

theorem findMin_cases (alphabet : List Str) (raw : Str) :
    findMin alphabet raw = ⟨raw.length, raw⟩ ∨
      ((findMin alphabet raw).minToken ∈ alphabet ∧
        (findMin alphabet raw).minIx < raw.length ∧
        firstOccur (findMin alphabet raw).minToken raw
          = some (findMin alphabet raw).minIx) := by
  unfold findMin
  exact findMin_aux raw alphabet alphabet ⟨raw.length, raw⟩ (fun t ht => ht) (Or.inl rfl)

theorem tokenizeFuel_total (alphabet : List Str) (hne : ∀ t ∈ alphabet, t ≠ []) :
    ∀ (fuel : Nat) (raw : Str), raw.length ≤ fuel →
      (tokenizeFuel alphabet fuel raw).isSome = true := by
  intro fuel
  induction fuel with
  | zero =>
    intro raw h
    have : raw = [] := List.eq_nil_of_length_eq_zero (Nat.le_zero.mp h)
    subst this
    simp [tokenizeFuel]
  | succ f ih =>
    intro raw h
    cases raw with
    | nil => simp [tokenizeFuel]
    | cons c t =>
      have hcase := findMin_cases alphabet (c :: t)
      rcases hfm : findMin alphabet (c :: t) with ⟨mIx, mTok⟩
      rw [hfm] at hcase
      simp only [tokenizeFuel, hfm, Option.isSome_map']
      rcases hcase with hdef | ⟨hmem, hlt, _⟩
      · have h1 : mIx = (c :: t).length := congrArg MinT.minIx hdef
        have h2 : mTok = c :: t := congrArg MinT.minToken hdef
        have hempty : (c :: t).drop (mIx + mTok.length) = [] := by
          apply List.drop_eq_nil_of_le
          rw [h1]
          omega
        rw [hempty]
        simp [tokenizeFuel]
      · apply ih
        have hmem2 : mTok ∈ alphabet := hmem
        have hlt2 : mIx < (c :: t).length := hlt
        have hk : 1 ≤ mTok.length := by
          have := hne _ hmem2
          cases mTok with
          | nil => exact absurd rfl this
          | cons a b => simp
        rw [List.length_drop]
        have hlen := List.length_cons c t
        omega

theorem tokenizeFuel_flatten (alphabet : List Str) :
    ∀ (fuel : Nat) (raw : Str) (res : List Str),
      tokenizeFuel alphabet fuel raw = some res → res.flatten = raw := by
  intro fuel
  induction fuel with
  | zero =>
    intro raw res h
    cases raw with
    | nil => simp only [tokenizeFuel] at h; cases h; rfl
    | cons c t => simp [tokenizeFuel] at h
  | succ f ih =>
    intro raw res h
    cases raw with
    | nil => simp only [tokenizeFuel] at h; cases h; rfl
    | cons c t =>
      have hcase := findMin_cases alphabet (c :: t)
      rcases hfm : findMin alphabet (c :: t) with ⟨mIx, mTok⟩
      rw [hfm] at hcase
      simp only [tokenizeFuel, hfm] at h
      rcases Option.map_eq_some'.mp h with ⟨r, hr, rfl⟩
      have hjoin := ih _ _ hr
      rcases hcase with hdef | ⟨_, hlt, hfo⟩
      · have h1 : mIx = (c :: t).length := congrArg MinT.minIx hdef
        have h2 : mTok = c :: t := congrArg MinT.minToken hdef
        have hempty : (c :: t).drop (mIx + mTok.length) = [] := by
          apply List.drop_eq_nil_of_le
          rw [h1]
          omega
        rw [hempty] at hr
        have hrnil : r = [] := by
          simp only [tokenizeFuel] at hr
          exact (Option.some_inj.mp hr).symm
        subst hrnil
        have hcond : ¬(0 < mIx ∧ mIx < (c :: t).length) := by
          rw [h1]
          omega
        rw [if_neg hcond, h2]
        simp
      · simp only at hlt hfo
        have hpre := (firstOccur_eq_some mTok (c :: t) mIx hfo).2
        have hsplit : mTok ++ ((c :: t).drop mIx).drop mTok.length
            = (c :: t).drop mIx := isPrefixOf_append mTok _ hpre
        have hdd : ((c :: t).drop mIx).drop mTok.length
            = (c :: t).drop (mIx + mTok.length) := by
          rw [List.drop_drop]
        have hfull : (c :: t).take mIx ++ (mTok
            ++ (c :: t).drop (mIx + mTok.length)) = c :: t := by
          rw [← hdd, hsplit, List.take_append_drop]
        by_cases hz : 0 < mIx
        · rw [if_pos ⟨hz, hlt⟩]
          simp only [List.flatten_append, List.flatten_cons, List.flatten_nil,
            List.append_nil]
          rw [hjoin]
          exact hfull
        · have hz0 : mIx = 0 := by omega
          rw [if_neg (by omega)]
          simp only [List.nil_append, List.flatten_cons]
          rw [hjoin]
          subst hz0
          simpa using hfull

/-- With the empty string in the token alphabet, one tokenizer iteration on a
non-empty line consumes nothing, so no amount of fuel finishes the scan:
the JavaScript source loops forever. -/
theorem tokenizeFuel_emptyTok (fuel : Nat) :
    tokenizeFuel [([] : Str)] fuel (str "a") = none := by
  induction fuel with
  | zero => rfl
  | succ f ih =>
    have hstep : tokenizeFuel [([] : Str)] (f + 1) (str "a")
        = (tokenizeFuel [([] : Str)] f (str "a")).map
            (fun r => ([] : Str) :: r) := rfl
    rw [hstep, ih]
    rfl

/-- C4, counterexample. The claim quantifies over every non-empty token
alphabet; for the non-empty alphabet consisting of the single empty token
string, the tokenizer of makeTokenizer does not terminate on input "a":
no amount of loop fuel completes the scan, because each iteration finds the
empty token at index 0 and consumes nothing. -/
theorem C4_counterexample : ¬ tokTerminates [([] : Str)] (str "a") := by
  rintro ⟨fuel, h⟩
  rw [tokenizeFuel_emptyTok fuel] at h
  simp at h

/-- C4, amended: for every input string and every token alphabet whose
tokens are all non-empty strings, the tokenizer of makeTokenizer terminates
(fuel equal to the input length suffices), concatenating the produced
pieces in order reproduces the input exactly, and the empty input produces
the empty sequence. -/
theorem C4_tokenizer_total (alphabet : List Str) (raw : Str)
    (hne : ∀ t ∈ alphabet, t ≠ []) :
    ∃ res, tokenizeFuel alphabet raw.length raw = some res ∧
      res.flatten = raw ∧ (raw = [] → res = []) ∧ tokenize alphabet raw = res := by
  have h := tokenizeFuel_total alphabet hne raw.length raw (Nat.le_refl _)
  rcases Option.isSome_iff_exists.mp h with ⟨res, hres⟩
  refine ⟨res, hres, tokenizeFuel_flatten alphabet _ _ _ hres, ?_, ?_⟩
  · rintro rfl
    simp only [tokenizeFuel] at hres
    exact (Option.some_inj.mp hres).symm
  · unfold tokenize
    rw [hres]
    rfl

/-- Witness for C4 at the concrete alphabet containing only a space and the
concrete input "a b". -/
theorem C4_witness :
    (∀ t ∈ [str " "], t ≠ []) ∧
      ∃ res, tokenizeFuel [str " "] (str "a b").length (str "a b") = some res ∧
        res.flatten = str "a b" ∧ (str "a b" = [] → res = []) ∧
        tokenize [str " "] (str "a b") = res :=
  ⟨by decide, C4_tokenizer_total [str " "] (str "a b") (by decide)⟩

--------------------------------------------------------------------------
-- Theorems: fingerprints (C8)
--------------------------------------------------------------------------

/-- C8: fingerprintSource on the chunks [TextToken "age", FieldToken alias
x] returns "age?"; on a chunk list whose leading text chunk begins with the
two characters "! " those two characters are stripped, the rest of that
chunk's text is kept, and the result is again "age?". -/
theorem C8_fingerprintSource :
    fingerprintSource [QChunk.text (str "age"), QChunk.field { al := some (str "x") }]
        = str "age?"
      ∧ fingerprintSource [QChunk.text (str "! age"), QChunk.field {}] = str "age?" := by
  decide

--------------------------------------------------------------------------
-- Theorems: blank chunk lists crash parse (C7)
--------------------------------------------------------------------------

/-- C7: for a line of only whitespace, parseLine does return the undefined
marker for an empty chunk list, but Query.parse then reads .chunks off that
undefined value: the parse of the single line " " aborts with a TypeError
instead of treating the line as blank and continuing. -/
theorem C7_whitespace_line_crashes :
    Query.parseLine (Query.qtokenize (str " ")) = .ok none
      ∧ Query.parse emptyStore gen0 freshQuery (str " ")
          = .error (.typeError (str "parsed is undefined: blank chunk list")) := by
  decide

--------------------------------------------------------------------------
-- Theorems: source negation is never marked (C5)
--------------------------------------------------------------------------

/-- C5: the Query line "! foo ?x" parses with the leading "!" as a keyword
chunk; processSource tests the first chunk with tokenIsText, which is false
for a keyword, so the classified source line has negated = false, and the
reified source (the fingerprint "! foo ?" resolves to view V in storeBang)
carries negated = false as well, contradicting the claim that a leading "!"
marks the source negated. -/
theorem C5_negated_not_set :
    (okState (Query.parse storeBang gen0 freshQuery (str "! foo ?x"))).map
        (fun st =>
          (st.errors, st.ast,
            st.reified.map (fun ir => ir.sources.map (fun s => (s.negated, s.sourceView)))))
      = some ([],
          some [Query.QNode.source false
            [QChunk.keyword (str "!"), QChunk.text (str " foo "),
              QChunk.field { al := some (str "x") }]],
          some [(false, str "V")]) := by
  decide

--------------------------------------------------------------------------
-- Theorems: ordinal scenarios (C6)
--------------------------------------------------------------------------

/-- C6, counterexample: with no preceding source line, the ordinal line
fails with the parse-time error whose message is "Ordinal must immediately
follow a source." — the phrase "must follow a valid source" quoted by the
claim belongs to the reify-time error and does not occur in the message
actually produced. -/
theorem C6_counterexample :
    (okState (Query.parse storeFoo gen0 freshQuery (str "# ?r by ?x ascending"))).map
        (fun st => st.errors)
      = some [.ordinalMustFollowSource]
      ∧ PErr.ordinalMustFollowSource.message = str "Ordinal must immediately follow a source."
      ∧ (firstOccur (str "must follow a valid source")
          PErr.ordinalMustFollowSource.message).isNone = true := by
  decide

/-- C6, amended: the ordinal line after a source with field aliased x
succeeds, producing sort = [(rank 0, field F bound to alias x, ascending)];
with no preceding source line it fails with the "must immediately follow a
source" parse error; with sort alias y matching no source field it fails
with the "does not match any aliased fields" error. -/
theorem C6_ordinal_scenarios :
    ((okState (Query.parse storeFoo gen0 freshQuery (str "foo ?x\n# ?r by ?x ascending"))).map
        (fun st =>
          (st.errors,
            st.reified.map (fun ir => ir.sources.map (fun s =>
              (s.sort, s.ordinal, s.fields.map (fun fl => (fl.field, fl.al)))))))
      = some ([], some [(some [{ ix := 0, field := str "F", direction := str "ascending" }],
          some (some (str "r")), [(str "F", some (str "x"))])]))
    ∧ ((okState (Query.parse storeFoo gen0 freshQuery (str "# ?r by ?x ascending"))).map
        (fun st => st.errors.map PErr.message)
      = some [str "Ordinal must immediately follow a source."])
    ∧ ((okState (Query.parse storeFoo gen0 freshQuery (str "foo ?x\n# ?r by ?y ascending"))).map
        (fun st => (st.errors, st.reified))
      = some ([.ordinalAliasNoMatch (str "y")], none))
    ∧ (firstOccur (str "does not match any aliased fields")
        (PErr.ordinalAliasNoMatch (str "y")).message).isSome = true := by
  decide

--------------------------------------------------------------------------
-- Theorems: error state handling (C2)
--------------------------------------------------------------------------

/-- C2, counterexample: the input with an unterminated backtick literal
ends the parse pass with a non-empty error list, yet failed is left unset
(reify never runs, and only reify writes failed), contradicting the claim
that whenever a parse or reification pass ends with errors the partial
structure is retained in failed. -/
theorem C2_counterexample :
    (okState (Query.parse emptyStore gen0 freshQuery (str "`x"))).map
        (fun st => (st.errors, st.reified, st.failed))
      = some ([.unterminatedQuotedLiteral], none, none) := by
  decide

/-- When reify returns normally on a state that has an AST, a non-empty
final error list forces reified to be cleared. -/
theorem reify_errors_clear (store : Store) (g : Gen) (st st2 : Query.QueryState)
    (g2 : Gen) (hast : st.ast.isSome = true)
    (hrun : Query.reify store g st = .ok (st2, g2)) :
    st2.errors ≠ [] → st2.reified = none := by
  intro herr
  unfold Query.reify at hrun
  cases hA : st.ast with
  | none => rw [hA] at hast; simp at hast
  | some ast =>
    rw [hA] at hrun
    dsimp only at hrun
    split at hrun
    · exact Except.noConfusion hrun
    · split at hrun
      · rename_i errs _ _ hempty
        cases hrun
        exact absurd (List.isEmpty_iff.mp hempty) herr
      · cases hrun
        rfl

/-- C2, amended: whenever a non-memoized Query.parse run returns normally
with a non-empty error list, reified is left unset; the partial structure
is retained in failed only when the errors arose during reification. For
the input foo $= (bar + ) — which classifies as a source line whose
fingerprint "foo $= (bar + )" matches no view — the error arises during
reification, so reified is unset and failed holds the partial IR. -/
theorem C2_errors_behavior :
    (∀ store g st raw st2 g2, st.raw ≠ some raw →
        Query.parse store g st raw = .ok (st2, g2) → st2.errors ≠ [] →
          st2.reified = none)
      ∧ (okState (Query.parse emptyStore gen0 freshQuery (str "foo $= (bar + )"))).map
          (fun st => (st.errors, st.reified, st.failed.isSome))
        = some ([.fingerprintNoView (str "foo $= (bar + )")], none, true) := by
  constructor
  · intro store g st raw st2 g2 hmemo hrun herr
    unfold Query.parse at hrun
    rw [if_neg hmemo] at hrun
    dsimp only at hrun
    split at hrun
    · exact Except.noConfusion hrun
    · split at hrun
      · exact reify_errors_clear _ _ _ _ _ (by simp) hrun herr
      · cases hrun
        rfl
  · decide

/-- Witness for C2: the general part applied to the concrete reification
error run. -/
theorem C2_witness : c2st.reified = none :=
  C2_errors_behavior.1 emptyStore gen0 freshQuery (str "foo $= (bar + )") c2st c2g
    (by decide) (by decide) (by decide)

--------------------------------------------------------------------------
-- Theorems: identifier stability (C1)
--------------------------------------------------------------------------

theorem getVariable_sources (al : Option Str) (ir : QueryIR) (g : Gen)
    (varId0 fieldId : Option Str) :
    ((getVariable al ir g varId0 fieldId).2.1).sources = ir.sources := by
  unfold getVariable
  dsimp only
  repeat' split <;> try rfl

theorem reifyFieldStep_inv (prev : Option QueryIR) (f : FieldT) (fieldId : Str)
    (src : SourceIR) (ir : QueryIR) (g : Gen) (src2 : SourceIR) (ir2 : QueryIR) (g2 : Gen)
    (h : Query.reifyFieldStep prev f fieldId src ir g = .ok (src2, ir2, g2)) :
    src2.source = src.source ∧ src2.sourceView = src.sourceView
      ∧ ir2.sources = ir.sources := by
  unfold Query.reifyFieldStep at h
  dsimp only at h
  split at h
  · exact Except.noConfusion h
  · split at h <;> split at h <;>
      (cases h; exact ⟨rfl, rfl, getVariable_sources _ _ _ _ _⟩)

theorem reifyFields_inv (prev : Option QueryIR) :
    ∀ (chunks : List QChunk) (src : SourceIR) (fIxes : List Str) (ir : QueryIR) (g : Gen)
      (res : Query.FieldLoopRes),
      Query.reifyFields prev chunks src fIxes ir g = .ok res → fieldResInv src ir res := by
  intro chunks
  induction chunks with
  | nil =>
    intro src fIxes ir g res h
    simp only [Query.reifyFields] at h
    cases h
    exact ⟨rfl, rfl, rfl⟩
  | cons c rest ih =>
    intro src fIxes ir g res h
    cases c with
    | text s =>
      simp only [Query.reifyFields] at h
      exact ih src fIxes ir g res h
    | keyword s =>
      simp only [Query.reifyFields] at h
      exact ih src fIxes ir g res h
    | field f =>
      simp only [Query.reifyFields] at h
      cases fIxes with
      | nil =>
        cases h
        rfl
      | cons fid frest =>
        dsimp only at h
        split at h
        · cases h
          rfl
        · split at h
          · exact Except.noConfusion h
          · rename_i sig hstep
            obtain ⟨sa, sb, sc⟩ := reifyFieldStep_inv prev f fid src ir g sig.1 sig.2.1
              sig.2.2 (by rw [hstep])
            have h2 := ih _ _ _ _ _ h
            cases res with
            | done src3 ir3 g3 =>
              obtain ⟨a, b, c2⟩ := h2
              exact ⟨a.trans sa, b.trans sb, c2.trans sc⟩
            | missing ir3 g3 =>
              exact (h2 : ir3.sources = sig.2.1.sources).trans sc

theorem reifyOrdinalVar_sources (prev : Option QueryIR) (lineAl : Option Str) (srcId : Str)
    (ir : QueryIR) (g : Gen) (ir2 : QueryIR) (g2 : Gen)
    (h : Query.reifyOrdinalVar prev lineAl srcId ir g = .ok (ir2, g2)) :
    ir2.sources = ir.sources := by
  unfold Query.reifyOrdinalVar at h
  dsimp only at h
  split at h
  · exact Except.noConfusion h
  · cases h
    exact getVariable_sources _ _ _ _ _

theorem headStable_append (pIR : QueryIR) (srcs : List SourceIR) (x : SourceIR)
    (h : headStable pIR srcs) (hne : srcs ≠ []) : headStable pIR (srcs ++ [x]) := by
  cases srcs with
  | nil => exact absurd rfl hne
  | cons a t =>
    intro hd ps hh hp hv
    exact h hd ps (by simpa using hh) hp hv

theorem headStable_setLast (pIR : QueryIR) (srcs : List SourceIR) (lastv src2 : SourceIR)
    (h : headStable pIR srcs) (hlast : srcs.getLast? = some lastv)
    (hsrc : src2.source = lastv.source) (hview : src2.sourceView = lastv.sourceView) :
    headStable pIR (srcs.dropLast ++ [src2]) := by
  cases srcs with
  | nil => simp at hlast
  | cons a t =>
    cases t with
    | nil =>
      have hla : lastv = a := by simpa using hlast.symm
      subst hla
      intro hd ps hh hp hv
      have hhd : hd = src2 := by simpa using hh.symm
      subst hhd
      exact hsrc.trans (h lastv ps rfl hp (hview ▸ hv))
    | cons b t2 =>
      intro hd ps hh hp hv
      have hhd : hd = a := by simpa using hh.symm
      rw [hhd] at hv ⊢
      exact h a ps rfl hp hv

theorem reifyLines_headStable (store : Store) (pIR : QueryIR) :
    ∀ (lines : List Query.QNode) (ir : QueryIR) (errs : List PErr) (g : Gen)
      (ir2 : QueryIR) (errs2 : List PErr) (g2 : Gen),
      Query.reifyLines store (some pIR) lines ir errs g = .ok (ir2, errs2, g2) →
      headStable pIR ir.sources → headStable pIR ir2.sources := by
  intro lines
  induction lines with
  | nil =>
    intro ir errs g ir2 errs2 g2 h hs
    simp only [Query.reifyLines] at h
    cases h
    exact hs
  | cons line rest ih =>
    intro ir errs g ir2 errs2 g2 h hs
    cases line with
    | blankText s =>
      simp only [Query.reifyLines] at h
      exact ih _ _ _ _ _ _ h hs
    | comment cs =>
      simp only [Query.reifyLines] at h
      exact ih _ _ _ _ _ _ h hs
    | calculation parts ctext =>
      simp only [Query.reifyLines] at h
      exact ih _ _ _ _ _ _ h hs
    | action cs =>
      simp only [Query.reifyLines] at h
      exact ih _ _ _ _ _ _ h hs
    | ordinal lineAl dirs chunks =>
      simp only [Query.reifyLines] at h
      split at h
      · exact ih _ _ _ _ _ _ h hs
      · rename_i src hlast
        split at h
        · exact Except.noConfusion h
        · rename_i irg hvar
          apply ih _ _ _ _ _ _ h
          have hso := reifyOrdinalVar_sources (some pIR) lineAl _ ir _ irg.1 irg.2
            (by rw [hvar])
          unfold Query.setLastSource
          dsimp only
          rw [hso]
          exact headStable_setLast pIR ir.sources src _ hs hlast rfl rfl
    | source neg chunks =>
      simp only [Query.reifyLines] at h
      split at h
      · exact ih _ _ _ _ _ _ h hs
      · rename_i view hvw
        split at h
        · exact Except.noConfusion h
        · rename_i ir2m g2m hfield
          cases h
          have hinv := reifyFields_inv (some pIR) chunks _ _ _ _ _ hfield
          have hms : ir2.sources = ir.sources := hinv
          rw [hms]
          exact hs
        · rename_i src2 ir2d g2d hfield
          apply ih _ _ _ _ _ _ h
          obtain ⟨hsrc2, hsv2, hsources⟩ := reifyFields_inv (some pIR) chunks _ _ _ _ _ hfield
          show headStable pIR (ir2d.sources ++ [src2])
          rw [hsources]
          cases hcase : ir.sources with
          | cons a t =>
            rw [hcase] at hs
            exact headStable_append pIR (a :: t) src2 hs (by simp)
          | nil =>
            intro hd ps hh hp hv
            have hhd : hd = src2 := by simpa using hh.symm
            subst hhd
            have hview2 : hd.sourceView = view := hsv2
            have hcond : ps.sourceView = view := by rw [← hview2, hv]
            rw [hcase] at hsrc2
            simp only [List.length_nil, Option.some_bind, List.get?_zero, hp] at hsrc2
            rw [if_pos hcond] at hsrc2
            exact hsrc2

theorem headStable_nil (pIR : QueryIR) : headStable pIR [] := by
  intro hd ps hh
  simp at hh

theorem reify_headStable (store : Store) (g : Gen) (st st2 : Query.QueryState) (g2 : Gen)
    (pIR ir : QueryIR)
    (hprev : st.prev = some pIR) (hre : st.reified = none) (hast : st.ast.isSome = true)
    (hrun : Query.reify store g st = .ok (st2, g2)) (hir : st2.reified = some ir) :
    headStable pIR ir.sources := by
  unfold Query.reify at hrun
  cases hA : st.ast with
  | none => rw [hA] at hast; simp at hast
  | some ast =>
    rw [hA, hre] at hrun
    dsimp only at hrun
    rw [hprev] at hrun
    dsimp only at hrun
    split at hrun
    · exact Except.noConfusion hrun
    · rename_i irr errsr g2r hRL
      split at hrun
      · cases hrun
        simp only at hir
        cases hir
        exact reifyLines_headStable store pIR _ _ _ _ _ _ _ hRL (headStable_nil pIR)
      · cases hrun
        simp at hir

/-- C1: identifier stability for the source at position 0. Given a Query
instance whose current reified IR has a source at position 0, re-parsing
text that again reifies successfully and whose position-0 source resolves
to the same view yields the identical source id at position 0. (An
unchanged source line yields the same fingerprint and hence the same view,
which the claim phrases as resolving to the same view V.) -/
theorem C1_source_id_stability (store : Store) (g : Gen) (st : Query.QueryState)
    (raw : Str) (st2 : Query.QueryState) (g2 : Gen) (prevIR ir : QueryIR)
    (ps s0 : SourceIR)
    (hprev : st.reified = some prevIR)
    (hrun : Query.parse store g st raw = .ok (st2, g2))
    (hir : st2.reified = some ir)
    (hps : prevIR.sources.head? = some ps)
    (hs0 : ir.sources.head? = some s0)
    (hview : s0.sourceView = ps.sourceView) :
    s0.source = ps.source := by
  unfold Query.parse at hrun
  by_cases hmemo : st.raw = some raw
  · rw [if_pos hmemo] at hrun
    cases hrun
    rw [hprev] at hir
    cases hir
    rw [hps] at hs0
    cases hs0
    rfl
  · rw [if_neg hmemo] at hrun
    rw [hprev] at hrun
    dsimp only at hrun
    split at hrun
    · exact Except.noConfusion hrun
    · rename_i astr errsr hPL
      split at hrun
      · refine (reify_headStable store g _ st2 g2 prevIR ir ?_ ?_ ?_ hrun hir) s0 ps hs0 hps hview
        · rfl
        · rfl
        · rfl
      · cases hrun
        simp at hir

/-- Witness for C1 at the concrete two-step run: parse "foo ?x" against
storeFoo, re-parse "foo ?x\n" (line 0 unchanged), and the position-0 source
keeps its id. -/
theorem C1_witness : c1s0.source = c1ps.source :=
  C1_source_id_stability storeFoo c1g1 c1st1 (str "foo ?x\n") c1st2 c1g2 c1prevIR c1ir
    c1ps c1s0 (by decide) (by decide) (by decide) (by decide) (by decide) (by decide)

--------------------------------------------------------------------------
-- Theorems: Ui.parse return value (C10)
--------------------------------------------------------------------------

/-- A normally returning Ui.reify leaves the raw field untouched. -/
theorem ui_reify_raw (store : Store) (g : Gen) (st st2 : Ui.UiState) (g2 : Gen)
    (h : Ui.reify store g st = .ok (st2, g2)) : st2.raw = st.raw := by
  unfold Ui.reify at h
  repeat'
    first
    | exact Except.noConfusion h
    | (cases h; rfl)
    | (dsimp only at h)
    | (split at h)

/-- C10: Ui.parse returns the instance only on the memoized path where the
given raw text equals the cached raw text (the state and generator come
back unchanged there); on every other normally completing path it returns
undefined even though it has updated the instance in place (the returned
state carries the new raw text). -/
theorem C10_parse_returns_only_memo (store : Store) (g : Gen) (st : Ui.UiState)
    (raw : Str) (st2 : Ui.UiState) (g2 : Gen) (ret : Bool)
    (hrun : Ui.parse store g st raw = .ok (st2, g2, ret)) :
    (ret = true ↔ st.raw = some raw)
      ∧ (ret = false → st2.raw = some raw)
      ∧ (st.raw = some raw → st2 = st ∧ g2 = g) := by
  unfold Ui.parse at hrun
  by_cases hmemo : st.raw = some raw
  · rw [if_pos hmemo] at hrun
    cases hrun
    exact ⟨⟨fun _ => hmemo, fun _ => rfl⟩,
      ⟨fun hf => absurd hf (by decide), fun _ => ⟨rfl, rfl⟩⟩⟩
  · rw [if_neg hmemo] at hrun
    dsimp only at hrun
    split at hrun
    · split at hrun
      · exact Except.noConfusion hrun
      · rename_i sg hre
        cases hrun
        have hraw := ui_reify_raw _ _ _ _ _ hre
        refine ⟨⟨fun hf => absurd hf (by decide), fun hm => absurd hm hmemo⟩,
          ⟨fun _ => ?_, fun hm => absurd hm hmemo⟩⟩
        rw [hraw]
    · cases hrun
      exact ⟨⟨fun hf => absurd hf (by decide), fun hm => absurd hm hmemo⟩,
        ⟨fun _ => rfl, fun hm => absurd hm hmemo⟩⟩

/-- Witness for C10 at the concrete fresh run on "div": the cached text is
absent, parse completes normally, and the return value is undefined. -/
theorem C10_witness :
    (c10ret = true ↔ freshUi.raw = some (str "div"))
      ∧ (c10ret = false → c10st.raw = some (str "div"))
      ∧ (freshUi.raw = some (str "div") → c10st = freshUi ∧ c10g = gen0) :=
  C10_parse_returns_only_memo emptyStore gen0 freshUi (str "div") c10st c10g c10ret
    (by decide)

--------------------------------------------------------------------------
-- Theorems: error propagation policy (C3)
--------------------------------------------------------------------------

/-- C3, counterexample: the Ui input that sets the id attribute after a
child element exists makes reification throw; the exception is caught
nowhere, so Ui.parse aborts entirely instead of recording the error and
moving to the next line. -/
theorem C3_counterexample :
    Ui.parse emptyStore gen0 freshUi (str "div\n- id: `A`")
      = .error (.thrown .idBeforeChildren) := by
  decide

theorem reifyFieldStep_noprev_ok (f : FieldT) (fieldId : Str) (src : SourceIR)
    (ir : QueryIR) (g : Gen) :
    ∃ sig, Query.reifyFieldStep none f fieldId src ir g = .ok sig :=
  ⟨_, rfl⟩

theorem reifyOrdinalVar_noprev_ok (lineAl : Option Str) (srcId : Str)
    (ir : QueryIR) (g : Gen) :
    ∃ irg, Query.reifyOrdinalVar none lineAl srcId ir g = .ok irg :=
  ⟨_, rfl⟩

theorem reifyFields_noprev_ok :
    ∀ (chunks : List QChunk) (src : SourceIR) (fIxes : List Str) (ir : QueryIR) (g : Gen),
      ∃ res, Query.reifyFields none chunks src fIxes ir g = .ok res := by
  intro chunks
  induction chunks with
  | nil => intro src fIxes ir g; exact ⟨_, rfl⟩
  | cons c rest ih =>
    intro src fIxes ir g
    cases c with
    | text s => simpa only [Query.reifyFields] using ih src fIxes ir g
    | keyword s => simpa only [Query.reifyFields] using ih src fIxes ir g
    | field f =>
      simp only [Query.reifyFields]
      cases fIxes with
      | nil => exact ⟨_, rfl⟩
      | cons fid frest =>
        dsimp only
        by_cases hemp : fid.isEmpty
        · rw [if_pos hemp]
          exact ⟨_, rfl⟩
        · rw [if_neg hemp]
          obtain ⟨sig, hsig⟩ := reifyFieldStep_noprev_ok f fid src ir g
          rw [hsig]
          exact ih sig.1 frest sig.2.1 sig.2.2

/-- With no previous IR, the reify line loop always returns normally and
only ever appends to the error list. -/
theorem reifyLines_noprev_ok (store : Store) :
    ∀ (lines : List Query.QNode) (ir : QueryIR) (errs : List PErr) (g : Gen),
      ∃ ir2 extra g2,
        Query.reifyLines store none lines ir errs g = .ok (ir2, errs ++ extra, g2) := by
  intro lines
  induction lines with
  | nil =>
    intro ir errs g
    exact ⟨ir, [], g, by simp only [Query.reifyLines, List.append_nil]⟩
  | cons line rest ih =>
    intro ir errs g
    cases line with
    | blankText s => simpa only [Query.reifyLines] using ih ir errs g
    | comment cs => simpa only [Query.reifyLines] using ih ir errs g
    | calculation parts ctext => simpa only [Query.reifyLines] using ih ir errs g
    | action cs =>
      obtain ⟨ir2, extra, g2, hrun⟩ := ih ir (errs ++ [.actionReifyTodo]) g
      exact ⟨ir2, .actionReifyTodo :: extra, g2, by
        simpa only [Query.reifyLines, List.append_assoc, List.singleton_append] using hrun⟩
    | ordinal lineAl dirs chunks =>
      simp only [Query.reifyLines]
      cases hlast : ir.sources.getLast? with
      | none =>
        obtain ⟨ir2, extra, g2, hrun⟩ := ih ir (errs ++ [.ordinalsMustFollowValidSource]) g
        exact ⟨ir2, .ordinalsMustFollowValidSource :: extra, g2, by
          simpa only [List.append_assoc, List.singleton_append] using hrun⟩
      | some src =>
        dsimp only
        obtain ⟨irg, hvar⟩ := reifyOrdinalVar_noprev_ok lineAl _ ir g
        rw [hvar]
        dsimp only
        obtain ⟨ir2, extra, g2, hrun⟩ := ih _ _ irg.2
        exact ⟨ir2, _ ++ extra, g2, by rw [← List.append_assoc]; exact hrun⟩
    | source neg chunks =>
      simp only [Query.reifyLines]
      cases hvw : dictGet store.viewByFingerprint (fingerprintSource chunks) with
      | none =>
        obtain ⟨ir2, extra, g2, hrun⟩ :=
          ih ir (errs ++ [.fingerprintNoView (fingerprintSource chunks)]) g
        exact ⟨ir2, .fingerprintNoView (fingerprintSource chunks) :: extra, g2, by
          simpa only [List.append_assoc, List.singleton_append] using hrun⟩
      | some view =>
        dsimp only
        obtain ⟨res, hres⟩ := reifyFields_noprev_ok chunks _ _ ir (uuid g).2
        rw [hres]
        cases res with
        | missing irm gm =>
          exact ⟨irm, [.fingerprintMissingField (fingerprintSource chunks)], gm, rfl⟩
        | done srcd ird gd =>
          exact ih _ errs gd

/-- C3, amended (Query side): on a fresh Query instance, whenever the line
loop of parse completes — every line's failure being recorded as an error
value — the reification that parse triggers also returns normally, only
appending its own errors, so the whole call returns instead of raising. -/
theorem C3_accumulates_errors (store : Store) (g : Gen) (raw : Str)
    (ast : List Query.QNode) (errs : List PErr)
    (hlines : Query.parseLines (Query.splitLines raw) [] [] = .ok (ast, errs)) :
    ∃ st2 g2 extra, Query.parse store g freshQuery raw = .ok (st2, g2)
      ∧ st2.errors = errs ++ extra := by
  unfold Query.parse
  rw [if_neg (by simp [freshQuery])]
  simp only [freshQuery]
  rw [hlines]
  dsimp only
  by_cases hemp : errs.isEmpty
  · rw [if_pos hemp]
    unfold Query.reify
    dsimp only
    obtain ⟨ir2, extra, g2, hrun⟩ := reifyLines_noprev_ok store (Query.flattenCalc ast)
      { id := (uuid g).1 } errs (uuid g).2
    rw [hrun]
    dsimp only
    by_cases hemp2 : (errs ++ extra).isEmpty
    · rw [if_pos hemp2]
      exact ⟨_, _, extra, rfl, rfl⟩
    · rw [if_neg hemp2]
      exact ⟨_, _, extra, rfl, rfl⟩
  · rw [if_neg hemp]
    exact ⟨_, _, [], rfl, by simp⟩

/-- Witness for C3 at the input with an unterminated literal: the line
error is recorded as a value and parse returns normally. -/
theorem C3_witness :
    ∃ st2 g2 extra,
      Query.parse emptyStore gen0 freshQuery (str "`x") = .ok (st2, g2)
        ∧ st2.errors = [PErr.unterminatedQuotedLiteral] ++ extra :=
  C3_accumulates_errors emptyStore gen0 (str "`x") [] [.unterminatedQuotedLiteral]
    (by decide)

--------------------------------------------------------------------------
-- Theorems: the Ui reifier and the indentation tree (C9)
--------------------------------------------------------------------------

theorem dictGet_set_self {K V : Type} [DecidableEq K] (d : Dict K V) (k : K) (v : V) :
    dictGet (dictSet d k v) k = some v := by
  induction d with
  | nil => simp [dictSet, dictGet]
  | cons hd t ih =>
    obtain ⟨k1, v1⟩ := hd
    by_cases hk : k1 = k
    · simp [dictSet, dictGet, hk]
    · simp [dictSet, dictGet, hk, ih]

theorem dictGet_set_ne {K V : Type} [DecidableEq K] (d : Dict K V) (k k2 : K) (v : V)
    (h : k2 ≠ k) : dictGet (dictSet d k v) k2 = dictGet d k2 := by
  induction d with
  | nil => simp [dictSet, dictGet, Ne.symm h]
  | cons hd t ih =>
    obtain ⟨k1, v1⟩ := hd
    by_cases hk : k1 = k
    · subst hk
      simp [dictSet, dictGet, Ne.symm h]
    · simp [dictSet, dictGet, hk, ih]

theorem uuidStr_inj (a b : Nat) (h : uuidStr a = uuidStr b) : a = b := by
  have h2 := congrArg List.length h
  simp [uuidStr, str] at h2
  exact h2

theorem get?_set_same {α : Type} : ∀ (l : List α) (i : Nat) (a : α),
    (l.set i a).get? i = (l.get? i).map (fun _ => a) := by
  intro l
  induction l with
  | nil => intro i a; cases i <;> rfl
  | cons x xs ih =>
    intro i a
    cases i with
    | zero => rfl
    | succ n => simpa using ih n a

theorem get?_set_other {α : Type} : ∀ (l : List α) (i k : Nat) (a : α), i ≠ k →
    (l.set i a).get? k = l.get? k := by
  intro l
  induction l with
  | nil => intro i k a _; cases i <;> rfl
  | cons x xs ih =>
    intro i k a hik
    cases i with
    | zero =>
      cases k with
      | zero => exact absurd rfl hik
      | succ n => rfl
    | succ m =>
      cases k with
      | zero => rfl
      | succ n => simpa using ih m n a (by omega)

theorem findRev_some (p : Nat → Bool) :
    ∀ m j0, j0 < m → p j0 = true → (∀ j, j0 < j → j < m → p j = false) →
      (List.range m).reverse.find? p = some j0 := by
  intro m
  induction m with
  | zero => intro j0 h; omega
  | succ m ih =>
    intro j0 hj0 hp hnone
    rw [List.range_succ, List.reverse_append, List.reverse_singleton,
      List.singleton_append]
    by_cases hE : j0 = m
    · subst hE
      exact List.find?_cons_of_pos _ hp
    · have hm : p m = false := hnone m (by omega) (by omega)
      rw [List.find?_cons_of_neg _ (by simp [hm])]
      exact ih j0 (by omega) hp (fun j h1 h2 => hnone j h1 (by omega))

theorem findRev_none (p : Nat → Bool) :
    ∀ m, (∀ j, j < m → p j = false) → (List.range m).reverse.find? p = none := by
  intro m
  induction m with
  | zero => intro; simp
  | succ m ih =>
    intro hnone
    rw [List.range_succ, List.reverse_append, List.reverse_singleton,
      List.singleton_append]
    rw [List.find?_cons_of_neg _ (by simp [hnone m (by omega)])]
    exact ih (fun j hj => hnone j (by omega))

theorem find?_ext {α : Type} (p q : α → Bool) :
    ∀ l : List α, (∀ a ∈ l, p a = q a) → l.find? p = l.find? q := by
  intro l
  induction l with
  | nil => intro; rfl
  | cons x xs ih =>
    intro h
    have hx := h x (by simp)
    by_cases hpx : p x = true
    · rw [List.find?_cons_of_pos _ hpx, List.find?_cons_of_pos _ (hx ▸ hpx)]
    · rw [List.find?_cons_of_neg _ hpx, List.find?_cons_of_neg _ (by rw [← hx]; exact hpx)]
      exact ih (fun a ha => h a (by simp [ha]))

theorem dropWhile_head_false {α : Type} (p : α → Bool) :
    ∀ (l : List α) (a : α) (t : List α), l.dropWhile p = a :: t → p a = false := by
  intro l
  induction l with
  | nil => intro a t h; exact absurd h (by simp)
  | cons x xs ih =>
    intro a t h
    rw [List.dropWhile_cons] at h
    split at h
    · exact ih a t h
    · cases h
      rename_i hx
      simpa using hx

theorem dropWhile_sub {α : Type} (p : α → Bool) (l : List α) :
    List.Sublist (l.dropWhile p) l := by
  conv_rhs => rw [← List.takeWhile_append_dropWhile (p := p) (l := l)]
  exact List.sublist_append_right _ _

theorem lastSeed_append (einds : List Nat) (d : Nat) :
    lastSeed (einds ++ [d]) = some d := by
  have he : (einds ++ [d]).isEmpty = false := by cases einds <;> rfl
  rw [lastSeed, if_neg (by simp [he])]
  rw [List.length_append]
  simp only [List.length_singleton, Nat.add_sub_cancel]
  rw [List.getD_append_right _ _ _ _ (Nat.le_refl _)]
  simp

theorem getVariable_gen_le (al : Option Str) (ir : QueryIR) (g : Gen)
    (varId0 fieldId : Option Str) :
    g.n ≤ ((getVariable al ir g varId0 fieldId).2.2).n := by
  unfold getVariable
  dsimp only
  repeat' split
  all_goals dsimp only [uuid]
  all_goals omega

theorem reifyFieldStep_gen_le (prev : Option QueryIR) (f : FieldT) (fieldId : Str)
    (src : SourceIR) (ir : QueryIR) (g : Gen) (res : SourceIR × QueryIR × Gen)
    (h : Query.reifyFieldStep prev f fieldId src ir g = .ok res) :
    g.n ≤ res.2.2.n := by
  unfold Query.reifyFieldStep at h
  dsimp only at h
  split at h
  · exact Except.noConfusion h
  · cases h
    exact getVariable_gen_le _ _ _ _ _

theorem reifyFields_gen_le (prev : Option QueryIR) :
    ∀ (chunks : List QChunk) (src : SourceIR) (fx : List Str) (ir : QueryIR) (g : Gen)
      (res : Query.FieldLoopRes),
      Query.reifyFields prev chunks src fx ir g = .ok res →
      g.n ≤ (match res with | .done _ _ g2 => g2.n | .missing _ g2 => g2.n) := by
  intro chunks
  induction chunks with
  | nil =>
    intro src fx ir g res h
    rw [Query.reifyFields] at h
    cases h
    exact Nat.le_refl _
  | cons c rest ih =>
    intro src fx ir g res h
    cases c with
    | text s => simp only [Query.reifyFields] at h; exact ih _ _ _ _ _ h
    | keyword s => simp only [Query.reifyFields] at h; exact ih _ _ _ _ _ h
    | field f =>
      cases fx with
      | nil =>
        simp only [Query.reifyFields] at h
        cases h
        exact Nat.le_refl _
      | cons fid frest =>
        simp only [Query.reifyFields] at h
        split at h
        · cases h
          exact Nat.le_refl _
        · split at h
          · exact Except.noConfusion h
          · rename_i sig hsig
            have h1 := reifyFieldStep_gen_le _ _ _ _ _ _ _ hsig
            have h2 := ih _ _ _ _ _ h
            omega

theorem reifyOrdinalVar_gen_le (prev : Option QueryIR) (lineAl : Option Str)
    (srcId : Str) (ir : QueryIR) (g : Gen) (res : QueryIR × Gen)
    (h : Query.reifyOrdinalVar prev lineAl srcId ir g = .ok res) :
    g.n ≤ res.2.n := by
  unfold Query.reifyOrdinalVar at h
  split at h
  · exact Except.noConfusion h
  · dsimp only at h
    cases h
    exact getVariable_gen_le _ _ _ _ _

theorem reifyLines_gen_le (store : Store) (prev : Option QueryIR) :
    ∀ (lines : List Query.QNode) (ir : QueryIR) (errs : List PErr) (g : Gen)
      (res : QueryIR × List PErr × Gen),
      Query.reifyLines store prev lines ir errs g = .ok res → g.n ≤ res.2.2.n := by
  intro lines
  induction lines with
  | nil =>
    intro ir errs g res h
    rw [Query.reifyLines] at h
    cases h
    exact Nat.le_refl _
  | cons line rest ih =>
    intro ir errs g res h
    cases line with
    | blankText s => simp only [Query.reifyLines] at h; exact ih _ _ _ _ h
    | comment cs => simp only [Query.reifyLines] at h; exact ih _ _ _ _ h
    | calculation parts ctext => simp only [Query.reifyLines] at h; exact ih _ _ _ _ h
    | action cs => rw [Query.reifyLines] at h; exact ih _ _ _ _ h
    | source neg chunks =>
      rw [Query.reifyLines] at h
      split at h
      · exact ih _ _ _ _ h
      · dsimp only at h
        split at h
        · exact Except.noConfusion h
        · rename_i ir2 g2 hfs
          have h1 := reifyFields_gen_le prev _ _ _ _ _ _ hfs
          cases h
          dsimp only [uuid] at h1
          dsimp only
          omega
        · rename_i src2 ir2 g2 hfs
          have h1 := reifyFields_gen_le prev _ _ _ _ _ _ hfs
          have h2 := ih _ _ _ _ h
          dsimp only [uuid] at h1
          omega
    | ordinal lineAl dirs chunks =>
      rw [Query.reifyLines] at h
      split at h
      · exact ih _ _ _ _ h
      · dsimp only at h
        split at h
        · exact Except.noConfusion h
        · rename_i irg hvar
          have h1 := reifyOrdinalVar_gen_le _ _ _ _ _ _ hvar
          have h2 := ih _ _ _ _ h
          omega

theorem qreify_gen_le (store : Store) (g : Gen) (st : Query.QueryState)
    (res : Query.QueryState × Gen) (h : Query.reify store g st = .ok res) :
    g.n ≤ res.2.n := by
  unfold Query.reify at h
  split at h
  · cases h
    exact Nat.le_refl _
  · dsimp only at h
    split at h
    · exact Except.noConfusion h
    · rename_i ir errs2 g2 hlines
      have h1 := reifyLines_gen_le store _ _ _ _ _ _ hlines
      have h2 : g.n ≤ g2.n := by
        refine Nat.le_trans ?_ h1
        repeat' split
        all_goals dsimp only [uuid]
        all_goals omega
      split at h <;> (cases h; exact h2)

theorem rsPreserves_refl (s : Ui.RState) : rsPreserves s s :=
  ⟨rfl, fun _ => ⟨rfl, rfl⟩, rfl, rfl, rfl, Nat.le_refl _⟩

theorem rsPreserves_trans (s1 s2 s3 : Ui.RState)
    (h1 : rsPreserves s1 s2) (h2 : rsPreserves s2 s3) : rsPreserves s1 s3 := by
  obtain ⟨a1, b1, c1, d1, e1, f1⟩ := h1
  obtain ⟨a2, b2, c2, d2, e2, f2⟩ := h2
  exact ⟨a2.trans a1, fun i => ⟨(b2 i).1.trans (b1 i).1, (b2 i).2.trans (b1 i).2⟩,
    c2.trans c1, d2.trans d1, e2.trans e1, f1.trans f2⟩

theorem errs_preserves (s : Ui.RState) (errs2 : List PErr) :
    rsPreserves s { s with errs := errs2 } :=
  ⟨rfl, fun _ => ⟨rfl, rfl⟩, rfl, rfl, rfl, Nat.le_refl _⟩

theorem setRef_preserves (s : Ui.RState) (r : Ui.ERef) (e : ElementIR)
    (he1 : e.element = (s.refElem r).element)
    (he2 : e.parent = (s.refElem r).parent) :
    rsPreserves s (s.setRef r e) := by
  cases r with
  | none => exact ⟨rfl, fun _ => ⟨rfl, rfl⟩, he1, rfl, rfl, Nat.le_refl _⟩
  | some i =>
    refine ⟨List.length_set _ _ _, fun k => ?_, rfl, rfl, rfl, Nat.le_refl _⟩
    by_cases hk : i = k
    · subst hk
      simp only [Ui.RState.setRef, Ui.RState.refElem]
      rw [get?_set_same]
      cases hg : s.elements.get? i with
      | none => exact ⟨rfl, rfl⟩
      | some x =>
        simp only [Ui.RState.refElem, hg, Option.getD_some] at he1 he2
        simp only [Option.map_some', Option.getD_some]
        exact ⟨he1, he2⟩
    · simp only [Ui.RState.setRef, Ui.RState.refElem]
      rw [get?_set_other _ _ _ _ hk]
      exact ⟨rfl, rfl⟩

theorem setRef_errs_preserves (s : Ui.RState) (r : Ui.ERef) (e : ElementIR)
    (errs2 : List PErr)
    (he1 : e.element = (s.refElem r).element)
    (he2 : e.parent = (s.refElem r).parent) :
    rsPreserves s { s.setRef r e with errs := errs2 } :=
  rsPreserves_trans _ _ _ (setRef_preserves s r e he1 he2)
    (errs_preserves (s.setRef r e) errs2)

theorem qparse_gen_le (store : Store) (g : Gen) (st : Query.QueryState) (raw : Str)
    (res : Query.QueryState × Gen) (h : Query.parse store g st raw = .ok res) :
    g.n ≤ res.2.n := by
  unfold Query.parse at h
  split at h
  · cases h
    exact Nat.le_refl _
  · dsimp only at h
    split at h
    · exact Except.noConfusion h
    · split at h
      · exact qreify_gen_le store g _ res h
      · cases h
        exact Nat.le_refl _

/-- Every non-element reify step that returns normally, with a parent
reference present and no parent or id attribute override, preserves the
structural data. -/
theorem reifyStep_preserves (store : Store) (pref : Ui.ERef) (line : Ui.UNode)
    (s s2 : Ui.RState)
    (hline : match line with
             | Ui.UNode.element _ _ _ _ => False
             | Ui.UNode.attribute p _ true _ => p ≠ str "parent" ∧ p ≠ str "id"
             | _ => True)
    (hrun : Ui.reifyStep store none (some pref) line s = .ok s2) :
    rsPreserves s s2 := by
  cases line
  next i =>
    simp only [Ui.reifyStep] at hrun
    cases hrun
    exact rsPreserves_refl s
  next t i =>
    simp only [Ui.reifyStep] at hrun
    cases hrun
    exact rsPreserves_refl s
  next p v static i =>
    rw [Ui.reifyStep] at hrun
    dsimp only at hrun
    cases static with
    | true =>
      obtain ⟨hp1, hp2⟩ := hline
      rw [if_pos rfl, if_neg hp1, if_neg hp2] at hrun
      cases hrun
      exact setRef_preserves _ _ _ rfl rfl
    | false =>
      rw [if_neg (by simp)] at hrun
      split at hrun
      · exact Except.noConfusion hrun
      · cases hrun
        exact errs_preserves _ _
      · cases hrun
        exact setRef_preserves _ _ _ rfl rfl
  next btext i =>
    rw [Ui.reifyStep] at hrun
    dsimp only at hrun
    split at hrun
    · exact Except.noConfusion hrun
    · rename_i qg hq
      have hg : s.g.n ≤ qg.2.n := qparse_gen_le store s.g {} btext qg hq
      split at hrun
      · exact Except.noConfusion hrun
      · split at hrun
        · exact Except.noConfusion hrun
        · rename_i res hbj
          split at hrun <;> cases hrun
          · refine rsPreserves_trans _ _ _ ?_ (setRef_preserves _ _ _ rfl rfl)
            refine rsPreserves_trans _ _ _ ?_ (setRef_errs_preserves _ _ _ _ rfl rfl)
            exact ⟨rfl, fun _ => ⟨rfl, rfl⟩, rfl, rfl, rfl, hg⟩
          · refine rsPreserves_trans _ _ _ ?_ (setRef_errs_preserves _ _ _ _ rfl rfl)
            exact ⟨rfl, fun _ => ⟨rfl, rfl⟩, rfl, rfl, rfl, hg⟩
  next ev key i =>
    cases key with
    | some k =>
      simp only [Ui.reifyStep] at hrun
      split at hrun
      · exact Except.noConfusion hrun
      · split at hrun
        · cases hrun
          exact errs_preserves _ _
        · cases hrun
          exact setRef_preserves _ _ _ rfl rfl
    | none =>
      simp only [Ui.reifyStep] at hrun
      cases hrun
      exact setRef_preserves _ _ _ rfl rfl
  next tag classes name i =>
    exact hline.elim

/-- The C9 invariant only depends on the data rsPreserves tracks. -/
theorem C9Inv_of_preserves (einds : List Nat) (s s2 : Ui.RState)
    (hp : rsPreserves s s2) (hinv : C9Inv einds s) : C9Inv einds s2 := by
  obtain ⟨hlen, hre, hroot, hind, hanc, hgle⟩ := hp
  obtain ⟨hA, hB, hR, hPW, hRD, hC, ⟨js, hjs, hjsPW, hjsB, hjsV⟩, hE⟩ := hinv
  have hmap : s2.elements.map (fun e => e.element)
      = s.elements.map (fun e => e.element) := by
    apply List.ext_get?
    intro n
    rw [List.get?_map, List.get?_map]
    by_cases hn : n < s.elements.length
    · have hn2 : n < s2.elements.length := by omega
      have h1 := (hre n).1
      simp only [Ui.RState.refElem, List.get?_eq_get hn2, List.get?_eq_get hn,
        Option.getD_some] at h1
      rw [List.get?_eq_get hn2, List.get?_eq_get hn]
      simp only [Option.map_some']
      rw [h1]
    · rw [List.get?_eq_none.mpr (by omega), List.get?_eq_none.mpr (by omega)]
  refine ⟨hlen.trans hA, ?_, ?_, ?_, ?_, ?_, ⟨js, ?_, hjsPW, ?_, ?_⟩, ?_⟩
  · intro i hi
    obtain ⟨n, hn, he⟩ := hB i (by omega)
    exact ⟨n, by omega, ((hre i).1).trans he⟩
  · obtain ⟨n0, hn0, he⟩ := hR
    exact ⟨n0, by omega, hroot.trans he⟩
  · rw [hroot, hmap]
    exact hPW
  · rw [hind, hroot]
    exact hRD
  · intro i hi
    rw [hind, (hre i).1]
    exact hC i (by omega)
  · rw [hanc]
    exact hjs
  · intro j hj
    rw [hlen]
    exact hjsB j hj
  · intro j hj
    rw [hlen] at hj ⊢
    exact hjsV j hj
  · intro i hi
    rw [(hre i).2, hE i (by omega)]
    cases nearestLower einds i with
    | none =>
      dsimp only
      rw [hroot]
    | some j =>
      dsimp only
      rw [(hre j).1]

/-- The ancestor pop against a stack of element references indexed by js,
with the root sentinel below: it drops exactly the prefix of js whose
indents are not less than the line indent, stopping at the first survivor
or at the root. -/
theorem popLoop_spec (s : Ui.RState) (d : Int) (einds : List Nat) :
    ∀ (js : List Nat) (last : Option Ui.ERef),
      (∀ j ∈ js, dictGet s.indentD ((s.refElem (some j)).element)
        = some ((einds.getD j 0 : Int))) →
      dictGet s.indentD s.root.element = some (-1) →
      0 ≤ d →
      Ui.popLoop s d (js.map some ++ [none]) last
        = (match js.dropWhile (fun j => decide (d ≤ (einds.getD j 0 : Int))) with
           | [] => (some none, [none])
           | j :: t => (some (some j), (j :: t).map some ++ [none])) := by
  intro js
  induction js with
  | nil =>
    intro last hlook hroot hd
    simp only [List.map_nil, List.nil_append, List.dropWhile_nil]
    rw [Ui.popLoop]
    simp only [Ui.RState.refElem]
    rw [hroot]
    dsimp only
    rw [if_pos (by omega)]
  | cons j t ih =>
    intro last hlook hroot hd
    simp only [List.map_cons, List.cons_append]
    rw [Ui.popLoop]
    rw [hlook j (by simp)]
    dsimp only
    rw [List.dropWhile_cons]
    by_cases hcase : (einds.getD j 0 : Int) < d
    · rw [if_pos hcase, if_neg (by simp only [decide_eq_true_eq]; omega)]
    · rw [if_neg hcase, if_pos (by simp only [decide_eq_true_eq]; omega)]
      exact ih (some (some j)) (fun x hx => hlook x (by simp [hx])) hroot hd

/-- Membership in the surviving suffix of the pop: exactly the stack
entries whose indents are strictly below the line indent. -/
theorem kept_mem_iff (einds : List Nat) (d : Int) (js : List Nat)
    (hpw : js.Pairwise (fun a b => a > b ∧ einds.getD a 0 > einds.getD b 0)) (j : Nat) :
    (j ∈ js.dropWhile (fun x => decide (d ≤ (einds.getD x 0 : Int))) ↔
      (j ∈ js ∧ (einds.getD j 0 : Int) < d)) := by
  constructor
  · intro hmem
    have hsub := dropWhile_sub (fun x => decide (d ≤ (einds.getD x 0 : Int))) js
    refine ⟨hsub.subset hmem, ?_⟩
    cases hdw : js.dropWhile (fun x => decide (d ≤ (einds.getD x 0 : Int))) with
    | nil => rw [hdw] at hmem; cases hmem
    | cons a t =>
      have hhead := dropWhile_head_false _ js a t hdw
      simp only [decide_eq_false_iff_not] at hhead
      rw [hdw] at hmem
      have hpw2 := hpw.sublist (hdw ▸ hsub)
      rcases List.mem_cons.mp hmem with he | ht
      · subst he
        omega
      · have := (List.pairwise_cons.mp hpw2).1 j ht
        omega
  · intro hmem
    obtain ⟨hmem, hlt⟩ := hmem
    have hsplit := List.takeWhile_append_dropWhile
      (p := fun x => decide (d ≤ (einds.getD x 0 : Int))) (l := js)
    rw [← hsplit] at hmem
    rcases List.mem_append.mp hmem with htw | hdw
    · have := List.mem_takeWhile_imp htw
      simp only [decide_eq_true_eq] at this
      omega
    · exact hdw

/-- If every stack entry above a is popped (its indent at least d) then
every element index above a has indent at least d: a dip below d after a
would either be on the stack or be hidden by a later, still lower dip. -/
theorem noLowerBetween (einds : List Nat) (js : List Nat) (m : Nat) (d : Int)
    (hjsV : ∀ j, j < m →
      (j ∈ js ↔ ∀ j2, j < j2 → j2 < m → einds.getD j 0 < einds.getD j2 0))
    (a : Int)
    (hdrop : ∀ jj ∈ js, a < (jj : Int) → d ≤ (einds.getD jj 0 : Int)) :
    ∀ (k j : Nat), a < (j : Int) → j < m → m - j ≤ k → d ≤ (einds.getD j 0 : Int) := by
  intro k
  induction k with
  | zero =>
    intro j h1 h2 h3
    omega
  | succ k ih =>
    intro j h1 h2 h3
    by_cases hmem : j ∈ js
    · exact hdrop j hmem h1
    · rw [hjsV j h2] at hmem
      push_neg at hmem
      obtain ⟨j2, hj2a, hj2b, hj2c⟩ := hmem
      have hrec := ih j2 (by omega) hj2b (by omega)
      omega

/-- A pairwise decreasing index stack containing its bound jm starts
with jm. -/
theorem js_head_eq (einds : List Nat) (js : List Nat) (jm : Nat)
    (hpw : js.Pairwise (fun a b => a > b ∧ einds.getD a 0 > einds.getD b 0))
    (hb : ∀ j ∈ js, j ≤ jm) (hmem : jm ∈ js) :
    ∃ t, js = jm :: t := by
  cases js with
  | nil => cases hmem
  | cons h t =>
    rcases List.mem_cons.mp hmem with he | ht
    · exact ⟨t, by rw [he]⟩
    · have hrel := (List.pairwise_cons.mp hpw).1 jm ht
      have hble := hb h (by simp)
      exfalso
      omega

/-- A line indented strictly deeper than the last element (or any line
before the first element) pops nothing: the loop stops at the stack head. -/
theorem popLoop_nopop (s : Ui.RState) (einds : List Nat) (dInt : Int)
    (hinv : C9Inv einds s)
    (hseed : ∀ e, lastSeed einds = some e → (e : Int) < dInt)
    (hd : 0 ≤ dInt) :
    ∃ r, Ui.popLoop s dInt s.ancestors none = (some r, s.ancestors) := by
  obtain ⟨hA, hB, hR, hPW, hRD, hC, ⟨js, hjs, hjsPW, hjsB, hjsV⟩, hE⟩ := hinv
  by_cases hemp : einds.isEmpty
  · have he : einds = [] := by
      cases einds with
      | nil => rfl
      | cons a t => simp [List.isEmpty] at hemp
    have hm0 : s.elements.length = 0 := by rw [hA, he]; rfl
    have hjsnil : js = [] := by
      cases js with
      | nil => rfl
      | cons a t =>
        have := hjsB a (by simp)
        omega
    subst hjsnil
    rw [hjs]
    simp only [List.map_nil, List.nil_append]
    refine ⟨none, ?_⟩
    rw [Ui.popLoop]
    simp only [Ui.RState.refElem]
    rw [hRD]
    dsimp only
    rw [if_pos (by omega)]
  · have hm : 0 < s.elements.length := by
      rw [hA]
      cases einds with
      | nil => simp [List.isEmpty] at hemp
      | cons a t => simp
    have hmem : s.elements.length - 1 ∈ js := by
      rw [hjsV _ (by omega)]
      intro j2 h1 h2
      omega
    obtain ⟨t, hjseq⟩ := js_head_eq einds js (s.elements.length - 1) hjsPW
      (fun j hj => by have := hjsB j hj; omega) hmem
    have hlt : ((einds.getD (s.elements.length - 1) 0 : Nat) : Int) < dInt := by
      refine hseed _ ?_
      rw [lastSeed, if_neg (by simp [hemp]), hA]
    refine ⟨some (s.elements.length - 1), ?_⟩
    rw [hjs, hjseq]
    simp only [List.map_cons, List.cons_append]
    rw [Ui.popLoop]
    rw [hC _ (by omega)]
    dsimp only
    rw [if_pos hlt]

/-- The element branch of reifyStep literally produces elemStepState. -/
theorem reifyStep_elem_eq (store : Store) (tag classes : Str) (name : Option Str)
    (d : Nat) (pref : Ui.ERef) (stack : List Ui.ERef) (s : Ui.RState) :
    Ui.reifyStep store none (some pref) (Ui.UNode.element tag classes name d)
      { s with ancestors := stack }
      = .ok (elemStepState s tag classes name d pref stack) := rfl

/-- The element step rebuilds the invariant for the extended indent list:
the fresh id stays distinct, the indent table gains the new element, the
stack keeps exactly the still-visible elements under the new one, and the
new element's parent is the nearest preceding lower-indent element. -/
theorem elemStepState_C9 (s : Ui.RState) (einds : List Nat) (tag classes : Str)
    (name : Option Str) (d : Nat) (pref : Ui.ERef) (js kept : List Nat)
    (hA : s.elements.length = einds.length)
    (hB : ∀ i, i < s.elements.length →
      ∃ n, n < s.g.n ∧ (s.refElem (some i)).element = Scalar.s (uuidStr n))
    (hR : ∃ n0, n0 < s.g.n ∧ s.root.element = Scalar.s (uuidStr n0))
    (hPW : (s.root.element :: s.elements.map (fun e => e.element)).Pairwise (· ≠ ·))
    (hRD : dictGet s.indentD s.root.element = some (-1))
    (hC : ∀ i, i < s.elements.length →
      dictGet s.indentD ((s.refElem (some i)).element) = some ((einds.getD i 0 : Int)))
    (hjsPW : js.Pairwise (fun a b => a > b ∧ einds.getD a 0 > einds.getD b 0))
    (hjsB : ∀ j ∈ js, j < s.elements.length)
    (hjsV : ∀ j, j < s.elements.length →
      (j ∈ js ↔ ∀ j2, j < j2 → j2 < s.elements.length →
        einds.getD j 0 < einds.getD j2 0))
    (hE : ∀ i, i < s.elements.length →
      (s.refElem (some i)).parent
        = some (match nearestLower einds i with
                | some jx => (s.refElem (some jx)).element
                | none => s.root.element))
    (hkept : kept = js.dropWhile (fun x => decide ((d : Int) ≤ (einds.getD x 0 : Int))))
    (hpref : pref = kept.head?) :
    C9Inv (einds ++ [d])
      (elemStepState s tag classes name d pref (kept.map some ++ [none])) := by
  have hkmem : ∀ j, j ∈ kept ↔ (j ∈ js ∧ (einds.getD j 0 : Int) < (d : Int)) := by
    intro j
    rw [hkept]
    exact kept_mem_iff einds (d : Int) js hjsPW j
  have hkb : ∀ j ∈ kept, j < s.elements.length :=
    fun j hj => hjsB j ((hkmem j).mp hj).1
  have hkPW : kept.Pairwise (fun a b => a > b ∧ einds.getD a 0 > einds.getD b 0) :=
    hjsPW.sublist (hkept ▸ dropWhile_sub _ js)
  have hfreshR : s.root.element ≠ Scalar.s (uuidStr s.g.n) := by
    obtain ⟨n0, hn0, he⟩ := hR
    rw [he]
    intro hcon
    have := uuidStr_inj _ _ (Scalar.s.inj hcon)
    omega
  have hfreshE : ∀ i, i < s.elements.length →
      (s.refElem (some i)).element ≠ Scalar.s (uuidStr s.g.n) := by
    intro i hi
    obtain ⟨n, hn, he⟩ := hB i hi
    rw [he]
    intro hcon
    have := uuidStr_inj _ _ (Scalar.s.inj hcon)
    omega
  have hmemElem : ∀ x ∈ s.elements.map (fun e => e.element),
      ∃ i, ∃ hi : i < s.elements.length, x = (s.refElem (some i)).element := by
    intro x hx
    obtain ⟨e, he, hxe⟩ := List.mem_map.mp hx
    obtain ⟨⟨i, hi⟩, hget⟩ := List.mem_iff_get.mp he
    refine ⟨i, hi, ?_⟩
    rw [← hxe, ← hget]
    show (s.elements.get ⟨i, hi⟩).element
      = ((s.elements.get? i).getD Ui.dummyElem).element
    rw [List.get?_eq_get hi]
    rfl
  have hEg1 : ∀ i, i < einds.length → (einds ++ [d]).getD i 0 = einds.getD i 0 :=
    fun i hi => List.getD_append _ _ _ _ hi
  have hEg2 : (einds ++ [d]).getD einds.length 0 = d := by
    rw [List.getD_append_right _ _ _ _ (Nat.le_refl _)]
    simp
  have h2old : ∀ i, i < s.elements.length →
      ((elemStepState s tag classes name d pref (kept.map some ++ [none])).refElem
        (some i)) = s.refElem (some i) := by
    intro i hi
    dsimp only [elemStepState, Ui.RState.refElem]
    rw [List.get?_append hi]
  have h2new : ((elemStepState s tag classes name d pref
      (kept.map some ++ [none])).refElem (some s.elements.length)).element
        = Scalar.s (uuidStr s.g.n)
      ∧ ((elemStepState s tag classes name d pref
        (kept.map some ++ [none])).refElem (some s.elements.length)).parent
          = some ((s.refElem pref).element) := by
    dsimp only [elemStepState, Ui.RState.refElem]
    rw [List.get?_concat_length]
    exact ⟨rfl, rfl⟩
  refine ⟨?_, ?_, ?_, ?_, ?_, ?_, ?_, ?_⟩
  · dsimp only [elemStepState]
    simp [hA]
  · intro i hi
    have hi2 : i < s.elements.length + 1 := by
      dsimp only [elemStepState] at hi
      simpa using hi
    by_cases hlt : i < s.elements.length
    · obtain ⟨n, hn, he⟩ := hB i hlt
      refine ⟨n, ?_, ?_⟩
      · dsimp only [elemStepState]
        omega
      · rw [h2old i hlt]
        exact he
    · have hieq : i = s.elements.length := by omega
      subst hieq
      refine ⟨s.g.n, ?_, h2new.1⟩
      dsimp only [elemStepState]
      omega
  · obtain ⟨n0, hn0, he⟩ := hR
    refine ⟨n0, ?_, he⟩
    dsimp only [elemStepState]
    omega
  · dsimp only [elemStepState]
    rw [List.map_append, ← List.cons_append]
    rw [List.pairwise_append]
    refine ⟨hPW, by simp, ?_⟩
    intro x hx y hy
    simp only [List.map_singleton, List.mem_singleton] at hy
    subst hy
    rcases List.mem_cons.mp hx with hxr | hxe
    · rw [hxr]
      exact hfreshR
    · obtain ⟨i, hi, hxi⟩ := hmemElem x hxe
      rw [hxi]
      exact hfreshE i hi
  · dsimp only [elemStepState]
    rw [dictGet_set_ne _ _ _ _ hfreshR]
    exact hRD
  · intro i hi
    dsimp only [elemStepState] at hi ⊢
    simp only [List.length_append, List.length_singleton] at hi
    by_cases hlt : i < s.elements.length
    · have := h2old i hlt
      dsimp only [elemStepState] at this
      rw [this, dictGet_set_ne _ _ _ _ (hfreshE i hlt), hC i hlt,
        hEg1 i (by omega)]
    · have hieq : i = s.elements.length := by omega
      subst hieq
      have := h2new.1
      dsimp only [elemStepState] at this
      rw [this, dictGet_set_self, hA, hEg2]
  · refine ⟨s.elements.length :: kept, rfl, ?_, ?_, ?_⟩
    · rw [List.pairwise_cons]
      constructor
      · intro b hb
        have hblt := hkb b hb
        refine ⟨hblt, ?_⟩
        rw [hA, hEg2, hEg1 b (by omega)]
        have := ((hkmem b).mp hb).2
        exact_mod_cast this
      · refine hkPW.imp_of_mem ?_
        intro a b ha hb hrel
        have halt := hkb a ha
        have hblt := hkb b hb
        rw [hEg1 a (by omega), hEg1 b (by omega)]
        exact hrel
    · intro j hj
      dsimp only [elemStepState]
      simp only [List.length_append, List.length_singleton]
      rcases List.mem_cons.mp hj with hje | hjk
      · omega
      · have := hkb j hjk
        omega
    · intro j hj
      dsimp only [elemStepState] at hj ⊢
      simp only [List.length_append, List.length_singleton] at hj ⊢
      by_cases hjm : j = s.elements.length
      · subst hjm
        refine iff_of_true (by simp) ?_
        intro j2 h1 h2
        omega
      · have hjlt : j < s.elements.length := by omega
        constructor
        · intro hmem
          rcases List.mem_cons.mp hmem with hje | hjk
          · exact absurd hje hjm
          · obtain ⟨hjs2, hlt2⟩ := (hkmem j).mp hjk
            intro j2 h1 h2
            by_cases hj2m : j2 = s.elements.length
            · subst hj2m
              rw [hA, hEg2, hEg1 j (by omega)]
              exact_mod_cast hlt2
            · have hj2lt : j2 < s.elements.length := by omega
              rw [hEg1 j (by omega), hEg1 j2 (by omega)]
              exact (hjsV j hjlt).mp hjs2 j2 h1 hj2lt
        · intro hall
          refine List.mem_cons.mpr (Or.inr ((hkmem j).mpr ⟨?_, ?_⟩))
          · refine (hjsV j hjlt).mpr ?_
            intro j2 h1 h2
            have := hall j2 h1 (by omega)
            rwa [hEg1 j (by omega), hEg1 j2 (by omega)] at this
          · have := hall s.elements.length hjlt (by omega)
            rw [hA, hEg2, hEg1 j (by omega)] at this
            exact_mod_cast this
  · intro i hi
    dsimp only [elemStepState] at hi
    simp only [List.length_append, List.length_singleton] at hi
    by_cases hlt : i < s.elements.length
    · rw [h2old i hlt, hE i hlt]
      have hNL : nearestLower (einds ++ [d]) i = nearestLower einds i := by
        unfold nearestLower
        refine find?_ext _ _ _ ?_
        intro a ha
        have halt : a < i := by
          rw [List.mem_reverse, List.mem_range] at ha
          exact ha
        rw [hEg1 a (by omega), hEg1 i (by omega)]
      rw [hNL]
      cases hnl : nearestLower einds i with
      | none => rfl
      | some jx =>
        have hjxlt : jx < i := by
          have := List.mem_of_find?_eq_some hnl
          rw [List.mem_reverse, List.mem_range] at this
          exact this
        dsimp only
        rw [h2old jx (by omega)]
    · have hieq : i = s.elements.length := by omega
      subst hieq
      rw [h2new.2]
      cases hkc : kept with
      | nil =>
        have hNL : nearestLower (einds ++ [d]) s.elements.length = none := by
          unfold nearestLower
          refine findRev_none _ _ ?_
          intro j hj
          have hdrop : ∀ jj ∈ js, (-1 : Int) < (jj : Int) →
              (d : Int) ≤ (einds.getD jj 0 : Int) := by
            intro jj hjj _
            have hjj2 : jj ∈ js.takeWhile
                (fun x => decide ((d : Int) ≤ (einds.getD x 0 : Int))) := by
              have hsplit := List.takeWhile_append_dropWhile
                (p := fun x => decide ((d : Int) ≤ (einds.getD x 0 : Int))) (l := js)
              rw [← hkept, hkc, List.append_nil] at hsplit
              rwa [← hsplit] at hjj
            have := List.mem_takeWhile_imp hjj2
            simpa using this
          have := noLowerBetween einds js s.elements.length (d : Int)
            hjsV (-1) hdrop s.elements.length j
            (by omega) (by omega) (by omega)
          simp only [decide_eq_false_iff_not]
          rw [hA, hEg2, hEg1 j (by omega)]
          omega
        rw [hpref, hkc, hNL]
        rfl
      | cons jh kt =>
        have hjhk : jh ∈ kept := by rw [hkc]; simp
        have hjhlt : jh < s.elements.length := hkb jh hjhk
        have hNL : nearestLower (einds ++ [d]) s.elements.length = some jh := by
          unfold nearestLower
          rw [hA]
          refine findRev_some _ einds.length jh (by omega) ?_ ?_
          · simp only [decide_eq_true_eq]
            rw [hEg2, hEg1 jh (by omega)]
            have := ((hkmem jh).mp hjhk).2
            exact_mod_cast this
          · intro j h1 h2
            have hdrop : ∀ jj ∈ js, (jh : Int) < (jj : Int) →
                (d : Int) ≤ (einds.getD jj 0 : Int) := by
              intro jj hjj hgt
              have hsplit := List.takeWhile_append_dropWhile
                (p := fun x => decide ((d : Int) ≤ (einds.getD x 0 : Int))) (l := js)
              rw [← hkept, hkc] at hsplit
              rw [← hsplit] at hjj
              rcases List.mem_append.mp hjj with htw | hdw
              · have := List.mem_takeWhile_imp htw
                simpa using this
              · rcases List.mem_cons.mp hdw with hje | hjt
                · exfalso
                  rw [hje] at hgt
                  omega
                · have hrel := (List.pairwise_cons.mp (hkc ▸ hkPW)).1 jj hjt
                  exfalso
                  omega
            have := noLowerBetween einds js s.elements.length (d : Int)
              hjsV (jh : Int) hdrop
              s.elements.length j (by exact_mod_cast Nat.cast_lt.mpr h1) (by omega)
              (by omega)
            simp only [decide_eq_false_iff_not]
            rw [hEg2, hEg1 j (by omega)]
            omega
        rw [hNL]
        dsimp only
        rw [← hkc]
        rw [h2old jh hjhlt]
        simp only [hpref, hkc, List.head?_cons]

theorem nearestLower_lt (inds : List Nat) (i j : Nat)
    (h : nearestLower inds i = some j) : j < i := by
  unfold nearestLower at h
  have := List.mem_of_find?_eq_some h
  rw [List.mem_reverse, List.mem_range] at this
  exact this

/-- The invariant holds for the fresh state reify builds before its loop. -/
theorem C9Inv_init (rootE : Scalar) (g1 : Gen) (n0 : Nat) (hn : n0 < g1.n)
    (hroot : rootE = Scalar.s (uuidStr n0)) (cd : Dict Scalar Nat)
    (errs : List PErr) (tg : Option Str) :
    C9Inv [] { root := { element := rootE, tag := tg, ix := 0 }, elements := [],
               boundQueries := [], indentD := [(rootE, (-1 : Int))], childD := cd,
               ancestors := [none], errs := errs, g := g1 } := by
  refine ⟨rfl, ?_, ⟨n0, hn, hroot⟩, ?_, ?_, ?_, ⟨[], rfl, ?_, ?_, ?_⟩, ?_⟩
  · intro i hi
    exact absurd hi (Nat.not_lt_zero i)
  · simp
  · simp [dictGet]
  · intro i hi
    exact absurd hi (Nat.not_lt_zero i)
  · simp
  · simp
  · intro j hj
    exact absurd hj (Nat.not_lt_zero j)
  · intro i hi
    exact absurd hi (Nat.not_lt_zero i)

/-- The Ui reify line loop with no previous IR keeps the tree invariant
throughout, accumulating the element indents. -/
theorem reifyLoop_C9 (store : Store) :
    ∀ (lines : List Ui.UNode) (einds : List Nat) (s sf : Ui.RState),
      noOverrides lines = true →
      indentsOk (lastSeed einds) lines = true →
      C9Inv einds s →
      Ui.reifyLoop store none lines s = .ok sf →
      C9Inv (einds ++ elemIndents lines) sf := by
  intro lines
  induction lines with
  | nil =>
    intro einds s sf hno hok hinv hrun
    rw [Ui.reifyLoop] at hrun
    cases hrun
    simpa [elemIndents] using hinv
  | cons line rest ih =>
    intro einds s sf hno hok hinv hrun
    have hno2 : noOverrides rest = true := by
      simp only [noOverrides, List.all_cons, Bool.and_eq_true] at hno
      exact hno.2
    cases line
    next i =>
      simp only [Ui.reifyLoop] at hrun
      have hok2 : indentsOk (lastSeed einds) rest = true := by
        simpa only [indentsOk] using hok
      have hres := ih einds s sf hno2 hok2 hinv hrun
      simpa [elemIndents] using hres
    next t i =>
      simp only [Ui.reifyLoop] at hrun
      have hok2 : indentsOk (lastSeed einds) rest = true := by
        simpa only [indentsOk] using hok
      have hres := ih einds s sf hno2 hok2 hinv hrun
      simpa [elemIndents] using hres
    next p v static i =>
      simp only [Ui.reifyLoop, Ui.UNode.ind] at hrun
      simp only [indentsOk, Ui.UNode.ind, Bool.and_eq_true] at hok
      obtain ⟨hokh, hokt⟩ := hok
      have hseed : ∀ e, lastSeed einds = some e → (e : Int) < ((i : Nat) : Int) := by
        intro e he
        rw [he] at hokh
        simp only [decide_eq_true_eq] at hokh
        exact_mod_cast hokh
      obtain ⟨r, hpl⟩ := popLoop_nopop s einds (i : Int) hinv hseed (by omega)
      rw [hpl] at hrun
      dsimp only at hrun
      split at hrun
      · exact Except.noConfusion hrun
      · rename_i s2 hstep
        have hline : (match Ui.UNode.attribute p v static i with
            | Ui.UNode.element _ _ _ _ => False
            | Ui.UNode.attribute p2 _ true _ => p2 ≠ str "parent" ∧ p2 ≠ str "id"
            | _ => True) := by
          cases static with
          | false => trivial
          | true =>
            simp only [noOverrides, List.all_cons, Bool.and_eq_true] at hno
            have hh := hno.1
            simp only [Bool.and_eq_true, decide_eq_true_eq] at hh
            exact hh
        have hpres := reifyStep_preserves store r (Ui.UNode.attribute p v static i)
          _ s2 hline hstep
        have hinv2 : C9Inv einds s2 := C9Inv_of_preserves einds _ s2 hpres hinv
        have hres := ih einds s2 sf hno2 hokt hinv2 hrun
        simpa [elemIndents] using hres
    next t i =>
      simp only [Ui.reifyLoop, Ui.UNode.ind] at hrun
      simp only [indentsOk, Ui.UNode.ind, Bool.and_eq_true] at hok
      obtain ⟨hokh, hokt⟩ := hok
      have hseed : ∀ e, lastSeed einds = some e → (e : Int) < ((i : Nat) : Int) := by
        intro e he
        rw [he] at hokh
        simp only [decide_eq_true_eq] at hokh
        exact_mod_cast hokh
      obtain ⟨r, hpl⟩ := popLoop_nopop s einds (i : Int) hinv hseed (by omega)
      rw [hpl] at hrun
      dsimp only at hrun
      split at hrun
      · exact Except.noConfusion hrun
      · rename_i s2 hstep
        have hpres := reifyStep_preserves store r (Ui.UNode.binding t i)
          _ s2 trivial hstep
        have hinv2 : C9Inv einds s2 := C9Inv_of_preserves einds _ s2 hpres hinv
        have hres := ih einds s2 sf hno2 hokt hinv2 hrun
        simpa [elemIndents] using hres
    next ev k i =>
      simp only [Ui.reifyLoop, Ui.UNode.ind] at hrun
      simp only [indentsOk, Ui.UNode.ind, Bool.and_eq_true] at hok
      obtain ⟨hokh, hokt⟩ := hok
      have hseed : ∀ e, lastSeed einds = some e → (e : Int) < ((i : Nat) : Int) := by
        intro e he
        rw [he] at hokh
        simp only [decide_eq_true_eq] at hokh
        exact_mod_cast hokh
      obtain ⟨r, hpl⟩ := popLoop_nopop s einds (i : Int) hinv hseed (by omega)
      rw [hpl] at hrun
      dsimp only at hrun
      split at hrun
      · exact Except.noConfusion hrun
      · rename_i s2 hstep
        have hpres := reifyStep_preserves store r (Ui.UNode.event ev k i)
          _ s2 trivial hstep
        have hinv2 : C9Inv einds s2 := C9Inv_of_preserves einds _ s2 hpres hinv
        have hres := ih einds s2 sf hno2 hokt hinv2 hrun
        simpa [elemIndents] using hres
    next tag classes name d =>
      simp only [Ui.reifyLoop, Ui.UNode.ind] at hrun
      simp only [indentsOk] at hok
      obtain ⟨hA, hB, hR, hPW, hRD, hC, ⟨js, hjs, hjsPW, hjsB, hjsV⟩, hE⟩ := hinv
      have hpop := popLoop_spec s (d : Int) einds js none
        (fun j hj => hC j (hjsB j hj)) hRD (by omega)
      rw [hjs, hpop] at hrun
      cases hkc : js.dropWhile (fun x => decide ((d : Int) ≤ (einds.getD x 0 : Int))) with
      | nil =>
        rw [hkc] at hrun
        dsimp only at hrun
        rw [reifyStep_elem_eq store tag classes name d none [none] s] at hrun
        dsimp only at hrun
        have hinv2 := elemStepState_C9 s einds tag classes name d none js []
          hA hB hR hPW hRD hC hjsPW hjsB hjsV hE hkc.symm rfl
        have hinv2b : C9Inv (einds ++ [d])
            (elemStepState s tag classes name d none [none]) := hinv2
        have hok2 : indentsOk (lastSeed (einds ++ [d])) rest = true := by
          rw [lastSeed_append]
          exact hok
        have hres := ih (einds ++ [d]) _ sf hno2 hok2 hinv2b hrun
        rw [show einds ++ elemIndents (Ui.UNode.element tag classes name d :: rest)
            = (einds ++ [d]) ++ elemIndents rest by
          simp [elemIndents, List.append_assoc]]
        exact hres
      | cons jh kt =>
        rw [hkc] at hrun
        dsimp only at hrun
        rw [reifyStep_elem_eq store tag classes name d (some jh)
          (List.map some (jh :: kt) ++ [none]) s] at hrun
        dsimp only at hrun
        have hinv2 := elemStepState_C9 s einds tag classes name d (some jh) js
          (jh :: kt) hA hB hR hPW hRD hC hjsPW hjsB hjsV hE hkc.symm rfl
        have hok2 : indentsOk (lastSeed (einds ++ [d])) rest = true := by
          rw [lastSeed_append]
          exact hok
        have hres := ih (einds ++ [d]) _ sf hno2 hok2 hinv2 hrun
        rw [show einds ++ elemIndents (Ui.UNode.element tag classes name d :: rest)
            = (einds ++ [d]) ++ elemIndents rest by
          simp [elemIndents, List.append_assoc]]
        exact hres

/-- C9, counterexample: two zero-error reification passes that violate the
claimed tree invariant. A static parent attribute override leaves the only
element with a parent id that is neither the root nor any element (a
dangling link, not a tree edge). An attribute line indented less than its
element pops the ancestor stack, after which a deeper element is attached
to the root instead of the nearest preceding lower-indent element (span,
at index 1). -/
theorem C9_counterexample :
    (c9xst1.errors = [] ∧ c9xst1.reified.isSome = true
      ∧ c9xir1.elements.length = 1
      ∧ (c9xir1.elements.headD Ui.dummyElem).parent = some (Scalar.s (str "A"))
      ∧ c9xir1.root.element ≠ Scalar.s (str "A")
      ∧ (c9xir1.elements.headD Ui.dummyElem).element ≠ Scalar.s (str "A"))
    ∧ (c9xst2.errors = [] ∧ c9xst2.reified.isSome = true
      ∧ elemIndents (c9xst2.ast.getD []) = [0, 2, 4]
      ∧ nearestLower (elemIndents (c9xst2.ast.getD [])) 2 = some 1
      ∧ ((c9xir2.elements.get? 2).getD Ui.dummyElem).parent = some c9xir2.root.element
      ∧ ((c9xir2.elements.get? 1).getD Ui.dummyElem).element ≠ c9xir2.root.element) := by
  decide

/-- C9 (amended): after a Ui reification pass with no previous IR that ends
with zero errors — reified is set — and whose AST has no parent or id
attribute overrides and keeps every attribute, binding and event line
indented strictly deeper than its element, the element structure is a tree:
the elements correspond to the element lines, all ids (root included) are
pairwise distinct, every element's parent link is exactly the nearest
preceding lower-indent element (the root when there is none), and the links
are acyclic because each points to an earlier element or the root. -/
theorem C9_tree_structure (store : Store) (g : Gen) (ast : List Ui.UNode)
    (st2 : Ui.UiState) (g2 : Gen) (ir : UiIR)
    (h1 : noOverrides ast = true) (h2 : indentsOk none ast = true)
    (hrun : Ui.reify store g { freshUi with ast := some ast } = .ok (st2, g2))
    (hir : st2.reified = some ir) :
    ir.elements.length = (elemIndents ast).length
    ∧ (ir.root.element :: ir.elements.map (fun e => e.element)).Pairwise (· ≠ ·)
    ∧ (∀ i, i < ir.elements.length →
        ((ir.elements.get? i).getD Ui.dummyElem).parent
          = some (match nearestLower (elemIndents ast) i with
                  | some j => ((ir.elements.get? j).getD Ui.dummyElem).element
                  | none => ir.root.element))
    ∧ (∀ i, i < ir.elements.length →
        ∃ p, ((ir.elements.get? i).getD Ui.dummyElem).parent = some p
          ∧ (p = ir.root.element
             ∨ ∃ j, j < i ∧ ((ir.elements.get? j).getD Ui.dummyElem).element = p)) := by
  unfold Ui.reify at hrun
  dsimp only at hrun
  split at hrun
  · exact Except.noConfusion hrun
  · rename_i s hloop
    have hinv := reifyLoop_C9 store ast [] _ s h1 h2
      (C9Inv_init (Scalar.s (uuidStr g.n)) ⟨g.n + 1⟩ g.n (Nat.lt_succ_self _) rfl
        [(Scalar.s (uuidStr g.n), 0)] [] (some (str "div"))) hloop
    rw [List.nil_append] at hinv
    obtain ⟨hA, hB, hR, hPW, hRD, hC, hstack, hE⟩ := hinv
    split at hrun
    · cases hrun
      dsimp only at hir
      cases hir
      refine ⟨hA, hPW, ?_, ?_⟩
      · intro i hi
        exact hE i hi
      · intro i hi
        have hp := hE i hi
        cases hnl : nearestLower (elemIndents ast) i with
        | none =>
          rw [hnl] at hp
          exact ⟨_, hp, Or.inl rfl⟩
        | some j =>
          rw [hnl] at hp
          exact ⟨_, hp, Or.inr ⟨j, nearestLower_lt _ _ _ hnl, rfl⟩⟩
    · cases hrun
      dsimp only at hir
      exact Option.noConfusion hir

/-- Witness for the amended C9 at the concrete well-nested AST
div > span > p with a second child b of div: the conclusion holds for its
zero-error reification. -/
theorem C9_witness :
    c9ir.elements.length = (elemIndents c9ast).length
    ∧ (c9ir.root.element :: c9ir.elements.map (fun e => e.element)).Pairwise (· ≠ ·)
    ∧ (∀ i, i < c9ir.elements.length →
        ((c9ir.elements.get? i).getD Ui.dummyElem).parent
          = some (match nearestLower (elemIndents c9ast) i with
                  | some j => ((c9ir.elements.get? j).getD Ui.dummyElem).element
                  | none => c9ir.root.element))
    ∧ (∀ i, i < c9ir.elements.length →
        ∃ p, ((c9ir.elements.get? i).getD Ui.dummyElem).parent = some p
          ∧ (p = c9ir.root.element
             ∨ ∃ j, j < i ∧ ((c9ir.elements.get? j).getD Ui.dummyElem).element = p)) :=
  C9_tree_structure emptyStore gen0 c9ast c9st c9g c9ir (by decide) (by decide)
    (by decide) (by decide)

end Parsers
